import Mathlib

/-
Verification development for dbt_common/events/contextvars.py.

The module implements a prefixed context-variable store: a process-wide
registry (the module-level dict _context_vars) mapping fully-qualified
names to ContextVar objects, bulk operations get/set/unset/reset/clear
keyed by a namespace prefix, two context managers (log_contextvars,
task_contextvars) that snapshot-and-restore their own entry keys, and a
separate module-level ContextVar _CURRENT_NODE named "current_node" with
default None, accessed by set_current_node / get_current_node.

Shallow embedding conventions:

* Python values are modelled by the inductive type Val.  Val.ellipsis is
  the module's unset-sentinel (the literal Ellipsis), Val.null is None.
* A ContextVar is identified by VarId: VarId.reg nm is the ContextVar
  stored in _context_vars under the fully-qualified name nm (the dict
  guarantees at most one such object per name), and VarId.currentNodeVar
  is the module-level _CURRENT_NODE object.  Two distinct ContextVar
  objects may share a name (e.g. a registry variable literally named
  "current_node" next to _CURRENT_NODE); identity, not name, keys the
  execution context.
* The execution context (what copy_context() returns) is modelled as an
  association list from VarId to Val containing exactly the variables
  that have been set and not reset away; a variable absent from the list
  resolves to its default.  CPython's Context is a hash-array-mapped trie
  whose iteration order is unspecified; the model determinises it to
  first-set order, with in-place update on re-set (noted where a result
  depends on it).
* Python dict results (get_contextvars's rv, the token mapping) are
  association lists with insert-at-end / update-in-place semantics.
* String operations used by the source (f-string concatenation,
  str.startswith, slicing name[len(prefix):]) are modelled over the
  codepoint sequence String.data, matching Python str semantics.
* contextvars.Token records the variable it came from and the value the
  context mapped the variable to immediately before the set (none for
  MISSING).  ContextVar.reset restores exactly that mapping entry.
  CPython additionally rejects reuse of a token or a token from another
  variable; such misuse is declared undefined behaviour by the spec
  (section 7), never arises in the developments below, and is not
  modelled.
-/

/-- Python values flowing through the store.  Val.ellipsis is the
module's unset-sentinel (Ellipsis); Val.null is None. -/
inductive Val where
  | ellipsis : Val
  | null : Val
  | str : String → Val
  | nat : Nat → Val
deriving DecidableEq, Repr

/-- Identity of a ContextVar object: either the registry entry for a
fully-qualified name, or the module-level _CURRENT_NODE. -/
inductive VarId where
  | reg : String → VarId
  | currentNodeVar : VarId
deriving DecidableEq, Repr

/-- The name attribute of a ContextVar (line 65 names registry variables
by their fully-qualified name; line 129 names _CURRENT_NODE
"current_node"). -/
def varName : VarId → String
  | VarId.reg nm => nm
  | VarId.currentNodeVar => "current_node"

/-- Python f-string concatenation f"{prefix}{k}" over codepoints. -/
def strCat (a b : String) : String := ⟨a.data ++ b.data⟩

/-- Python slicing name[n:] over codepoints. -/
def strDrop (s : String) (n : Nat) : String := ⟨s.data.drop n⟩

/-- Python len over codepoints. -/
def strLen (s : String) : Nat := s.data.length

/-- Python str.startswith over codepoints. -/
def strStartsWith (s p : String) : Bool := p.data.isPrefixOf s.data

/-- The execution context mapping, as seen and mutated through
copy_context / ContextVar.set: the variables currently set, in first-set
order. -/
abbrev Ctx := List (VarId × Val)

/-- Value the context maps a variable to, if the variable is set. -/
def ctxLookup (c : Ctx) (a : VarId) : Option Val :=
  match c with
  | [] => none
  | p :: rest => if p.1 = a then some p.2 else ctxLookup rest a

/-- ContextVar.set at the context level: update the variable's entry in
place, or add the variable to the context if it was not set. -/
def ctxSet (c : Ctx) (a : VarId) (v : Val) : Ctx :=
  match c with
  | [] => [(a, v)]
  | p :: rest => if p.1 = a then (a, v) :: rest else p :: ctxSet rest a v

/-- Removal of a variable's entry from the context (ContextVar.reset
with a token whose prior value was MISSING). -/
def ctxDel (c : Ctx) (a : VarId) : Ctx :=
  c.filter (fun p => decide (p.1 ≠ a))

/-- ContextVar.reset at the context level: re-establish the mapping the
token recorded (old = none meaning the variable was not set). -/
def restoreCtx (c : Ctx) (a : VarId) (old : Option Val) : Ctx :=
  match old with
  | none => ctxDel c a
  | some w => ctxSet c a w

/-- Python dict insert/update: replace the value in place if the key is
bound, else append the binding. -/
def dset {α : Type} (d : List (String × α)) (k : String) (v : α) : List (String × α) :=
  match d with
  | [] => [(k, v)]
  | p :: rest => if p.1 = k then (k, v) :: rest else p :: dset rest k v

/-- Python dict lookup. -/
def dlookup {α : Type} (d : List (String × α)) (k : String) : Option α :=
  match d with
  | [] => none
  | p :: rest => if p.1 = k then some p.2 else dlookup rest k

/-- Program state: the module-level registry _context_vars (the list of
fully-qualified names that have a ContextVar, in creation order; the
variable object for name nm is VarId.reg nm) together with the current
execution context. -/
structure Store where
  registry : List String
  ctx : Ctx
deriving DecidableEq, Repr

/-- Fresh process state: empty registry, nothing set in the context. -/
def store0 : Store := ⟨[], []⟩

/-- contextvars.Token: the variable that issued it and the value the
context mapped it to immediately before the set (none for MISSING). -/
structure Token where
  tvar : VarId
  old : Option Val
deriving DecidableEq, Repr

/-- LOG_PREFIX (line 7). -/
def LOG_PREFIX : String := "log_"

/-- TASK_PREFIX (line 8). -/
def TASK_PREFIX : String := "task_"

/-- Condition under which get_contextvars reports a context entry
(line 19): the variable's name starts with the prefix and its value is
not the sentinel. -/
def visibleUnder (pfx : String) (p : VarId × Val) : Bool :=
  strStartsWith (varName p.1) pfx && decide (p.2 ≠ Val.ellipsis)

/-- Loop of get_contextvars (lines 18-21) over the remaining context
entries, accumulating the result dict rv. -/
def getvarsAux (pfx : String) (c : Ctx) (rv : List (String × Val)) : List (String × Val) :=
  match c with
  | [] => rv
  | p :: rest =>
    getvarsAux pfx rest
      (if visibleUnder pfx p then dset rv (strDrop (varName p.1) (strLen pfx)) p.2 else rv)

/-- get_contextvars (lines 13-22): report every set variable whose name
starts with the prefix and whose value is not Ellipsis, keyed by the
name with the prefix stripped. -/
def get_contextvars (pfx : String) (s : Store) : List (String × Val) :=
  getvarsAux pfx s.ctx []

/-- Visible value of one key under a prefix: the binding the
get_contextvars result dict gives it.  Abbreviation used in statements. -/
def readKey (pfx k : String) (s : Store) : Option Val :=
  dlookup (get_contextvars pfx s) k

/-- Body of the set_contextvars loop for one keyword (lines 60-68):
resolve or create the registry variable for prefix+k, set it, and
return the token. -/
def setOne (pfx k : String) (v : Val) (s : Store) : Token × Store :=
  let nm := strCat pfx k
  let reg2 := if nm ∈ s.registry then s.registry else s.registry ++ [nm]
  (⟨VarId.reg nm, ctxLookup s.ctx (VarId.reg nm)⟩,
   ⟨reg2, ctxSet s.ctx (VarId.reg nm) v⟩)

/-- set_contextvars (lines 58-70).  The kwargs mapping is a Python
keyword dict, so its keys are distinct; the token dict is built in
iteration order. -/
def set_contextvars (pfx : String) (kwargs : List (String × Val)) (s : Store) :
    List (String × Token) × Store :=
  match kwargs with
  | [] => ([], s)
  | (k, v) :: rest =>
    let r1 := setOne pfx k v s
    let r2 := set_contextvars pfx rest r1.2
    ((k, r1.1) :: r2.1, r2.2)

/-- set_log_contextvars (lines 48-49). -/
def set_log_contextvars (kwargs : List (String × Val)) (s : Store) :
    List (String × Token) × Store :=
  set_contextvars LOG_PREFIX kwargs s

/-- set_task_contextvars (lines 52-53). -/
def set_task_contextvars (kwargs : List (String × Val)) (s : Store) :
    List (String × Token) × Store :=
  set_contextvars TASK_PREFIX kwargs s

/-- Body of the reset_contextvars loop for one keyword (lines 75-78):
the registry lookup _context_vars[prefix+k] raises KeyError (surfaced by
the spec as UnknownVariable) when the name was never created; otherwise
the variable is reset to the mapping the token recorded.  The error
carries the unknown fully-qualified name. -/
def resetOne (pfx k : String) (tok : Token) (s : Store) : Except String Store :=
  let nm := strCat pfx k
  if nm ∈ s.registry then
    Except.ok ⟨s.registry, restoreCtx s.ctx (VarId.reg nm) tok.old⟩
  else
    Except.error nm

/-- reset_contextvars (lines 74-78): reset each key's variable by its
token, stopping at the first unknown name.  -/
def reset_contextvars (pfx : String) (toks : List (String × Token)) (s : Store) :
    Except String Store :=
  match toks with
  | [] => Except.ok s
  | (k, tok) :: rest =>
    match resetOne pfx k tok s with
    | Except.ok s1 => reset_contextvars pfx rest s1
    | Except.error e => Except.error e

/-- Body of the unset_contextvars loop for one key (lines 83-86): if a
registry variable exists for prefix+k, set it to Ellipsis; otherwise do
nothing. -/
def unsetOne (pfx k : String) (s : Store) : Store :=
  let nm := strCat pfx k
  if nm ∈ s.registry then ⟨s.registry, ctxSet s.ctx (VarId.reg nm) Val.ellipsis⟩ else s

/-- unset_contextvars (lines 82-86). -/
def unset_contextvars (pfx : String) (keys : List String) (s : Store) : Store :=
  match keys with
  | [] => s
  | k :: rest => unset_contextvars pfx rest (unsetOne pfx k s)

/-- clear_contextvars (lines 41-45): set every currently-set variable
whose name starts with the prefix to Ellipsis, regardless of its current
value and whether it is a registry variable. -/
def clear_contextvars (pfx : String) (s : Store) : Store :=
  ⟨s.registry,
   s.ctx.map (fun p => if strStartsWith (varName p.1) pfx then (p.1, Val.ellipsis) else p)⟩

/-- Saved subset computed on scope entry (lines 92-93 and 106-107): the
pre-existing visible bindings restricted to the scope's own keys. -/
def scope_saved (pfx : String) (kwargs : List (String × Val)) (s : Store) :
    List (String × Val) :=
  (get_contextvars pfx s).filter (fun p => kwargs.any (fun q => decide (q.1 = p.1)))

/-- Scope exit (the finally blocks, lines 98-100 and 112-114): unset
every scope key, then re-set the saved subset. -/
def scope_exit (pfx : String) (kwargs saved : List (String × Val)) (s : Store) : Store :=
  (set_contextvars pfx saved
    (unset_contextvars pfx (kwargs.map (fun q => q.1)) s)).2

/-- The prefix-parametric context manager shared by log_contextvars
(lines 90-100) and task_contextvars (lines 104-114), with the body's
outcome made explicit: the body transforms the state and either returns
normally (no error value) or raises.  The finally clause runs the exit
on the body's final state in both cases and the body's own error, if
any, is forwarded unchanged. -/
def scoped_contextvars_try {ε : Type} (pfx : String) (kwargs : List (String × Val))
    (body : Store → Store × Option ε) (s : Store) : Store × Option ε :=
  let saved := scope_saved pfx kwargs s
  let s1 := (set_contextvars pfx kwargs s).2
  let r := body s1
  (scope_exit pfx kwargs saved r.1, r.2)

/-- The same context manager for a body that returns normally. -/
def scoped_contextvars (pfx : String) (kwargs : List (String × Val))
    (body : Store → Store) (s : Store) : Store :=
  (scoped_contextvars_try pfx kwargs (fun t => (body t, (none : Option Unit))) s).1

/-- log_contextvars (lines 90-100). -/
def log_contextvars (kwargs : List (String × Val)) (body : Store → Store) (s : Store) :
    Store :=
  scoped_contextvars LOG_PREFIX kwargs body s

/-- task_contextvars (lines 104-114). -/
def task_contextvars (kwargs : List (String × Val)) (body : Store → Store) (s : Store) :
    Store :=
  scoped_contextvars TASK_PREFIX kwargs body s

/-- set_current_node (lines 132-143): unconditionally set _CURRENT_NODE. -/
def set_current_node (v : Val) (s : Store) : Store :=
  ⟨s.registry, ctxSet s.ctx VarId.currentNodeVar v⟩

/-- get_current_node (lines 146-156): the value of _CURRENT_NODE, whose
default (line 129) is None. -/
def get_current_node (s : Store) : Val :=
  (ctxLookup s.ctx VarId.currentNodeVar).getD Val.null

/-- Structural facts every reachable program state enjoys: the execution
context maps each variable at most once. -/
abbrev WFc (c : Ctx) : Prop :=
  (c.map (fun p => p.1)).Nodup

/-- Facts any scope body built from the module's own operations
preserves: context well-formedness, and that registry entries are never
removed (the source has no deletion from _context_vars). -/
def GoodBody (body : Store → Store) : Prop :=
  ∀ t : Store, (WFc t.ctx → WFc (body t).ctx) ∧
    (∀ nm : String, nm ∈ t.registry → nm ∈ (body t).registry)

/-- GoodBody for a body that may raise. -/
def GoodBodyTry {ε : Type} (body : Store → Store × Option ε) : Prop :=
  ∀ t : Store, (WFc t.ctx → WFc (body t).1.ctx) ∧
    (∀ nm : String, nm ∈ t.registry → nm ∈ (body t).1.registry)

/-- A context entry contributes the binding for a given result key of
get_contextvars exactly when it is visible under the prefix and its name
strips to that key. -/
def matchesKey (pfx key : String) (p : VarId × Val) : Bool :=
  visibleUnder pfx p && decide (strDrop (varName p.1) (strLen pfx) = key)

/-- Last context entry contributing to a given result key (the one whose
value the result dict of get_contextvars ends up holding). -/
def lastMatch (pfx key : String) (c : Ctx) : Option (VarId × Val) :=
  match c with
  | [] => none
  | p :: rest =>
    match lastMatch pfx key rest with
    | some q => some q
    | none => if matchesKey pfx key p then some p else none

/-- Value of one variable filtered through the sentinel check: what the
variable contributes to visibility. -/
def visValue (c : Ctx) (a : VarId) : Option Val :=
  match ctxLookup c a with
  | some w => if w = Val.ellipsis then none else some w
  | none => none

/-- Modelled from the claim's words (C3), for comparison with the code:
the map whose bindings are those of entries together with every binding
of the prior visible state whose key is not a key of entries. -/
def specMerge (entries prior : List (String × Val)) (k : String) : Option Val :=
  match dlookup entries k with
  | some v => some v
  | none => dlookup prior k

/-- Concrete state for claim C3: a registry variable literally named
"current_node" is set to "A", then set_current_node stores "B" in the
module-level slot of the same name.  Both entries are visible under the
empty prefix with the same result key. -/
def c3Store : Store :=
  set_current_node (Val.str "B")
    (set_contextvars "" [("current_node", Val.str "A")] store0).2

/-- The C3 state after the setMany under test. -/
def c3After : Store :=
  (set_contextvars "" [("current_node", Val.str "C")] c3Store).2

/-- Program counter of one thread inside the first-use path of
set_contextvars for one contested fully-qualified name: about to run the
registry lookup of line 63, resumed after that lookup raised KeyError
(line 64), or past line 66. -/
inductive RacePc where
  | start : RacePc
  | missed : RacePc
  | finished : RacePc
deriving DecidableEq, Repr

/-- One thread: its position in the first-use path and the ContextVar it
ended up holding as var (variables are numbered by creation order). -/
structure RaceThread where
  pc : RacePc
  held : Option Nat
deriving DecidableEq, Repr

/-- Two threads racing through the first-use path for the same name:
the shared registry entry for that name, the creation counter
distinguishing ContextVar objects, and both threads. -/
structure RaceSys where
  reg : Option Nat
  fresh : Nat
  t1 : RaceThread
  t2 : RaceThread
deriving DecidableEq, Repr

/-- One atomic region of one thread.  From start, the try-lookup of line
63 either finds the registry entry (the thread is done, sharing that
variable) or raises KeyError, leaving the thread suspended before the
except branch.  From missed, the except branch of lines 65-66 creates a
fresh ContextVar and inserts it, overwriting whatever the registry held. -/
def raceStep1 (reg : Option Nat) (fresh : Nat) (t : RaceThread) :
    Option Nat × Nat × RaceThread :=
  match t.pc with
  | RacePc.start =>
    match reg with
    | some v => (reg, fresh, ⟨RacePc.finished, some v⟩)
    | none => (reg, fresh, ⟨RacePc.missed, t.held⟩)
  | RacePc.missed => (some fresh, fresh + 1, ⟨RacePc.finished, some fresh⟩)
  | RacePc.finished => (reg, fresh, t)

/-- Run one atomic region of the scheduled thread (true for the first
thread). -/
def raceStep (sys : RaceSys) (tid : Bool) : RaceSys :=
  if tid then
    let r := raceStep1 sys.reg sys.fresh sys.t1
    ⟨r.1, r.2.1, r.2.2, sys.t2⟩
  else
    let r := raceStep1 sys.reg sys.fresh sys.t2
    ⟨r.1, r.2.1, sys.t1, r.2.2⟩

/-- Run a schedule, one atomic region at a time. -/
def raceRun (sched : List Bool) (sys : RaceSys) : RaceSys :=
  sched.foldl raceStep sys

/-- Both threads about to resolve a name no ContextVar exists for yet. -/
def raceInit : RaceSys := ⟨none, 0, ⟨RacePc.start, none⟩, ⟨RacePc.start, none⟩⟩

/-- A list is a Boolean prefix of itself followed by anything. -/
theorem isPrefixOf_append (l t : List Char) : l.isPrefixOf (l ++ t) = true := by
  induction l with
  | nil => simp [List.isPrefixOf]
  | cons a as ih => simp [List.isPrefixOf, ih]

/-- Dropping the length of a Boolean prefix recovers the remainder. -/
theorem isPrefixOf_append_drop (p n : List Char) (h : p.isPrefixOf n = true) :
    p ++ n.drop p.length = n := by
  induction p generalizing n with
  | nil => simp
  | cons a as ih =>
    cases n with
    | nil => simp [List.isPrefixOf] at h
    | cons b bs =>
      simp only [List.isPrefixOf, Bool.and_eq_true, beq_iff_eq] at h
      obtain ⟨rfl, h2⟩ := h
      simp [ih bs h2]

/-- Concatenation satisfies startswith. -/
theorem strStartsWith_strCat (p k : String) : strStartsWith (strCat p k) p = true :=
  isPrefixOf_append p.data k.data

/-- Stripping the prefix off a concatenation recovers the key. -/
theorem strDrop_strCat (p k : String) : strDrop (strCat p k) (strLen p) = k := by
  show (⟨(p.data ++ k.data).drop p.data.length⟩ : String) = k
  rw [List.drop_left]

/-- A name that starts with a prefix is that prefix followed by the
stripped remainder. -/
theorem strCat_of_startsWith (n p : String) (h : strStartsWith n p = true) :
    strCat p (strDrop n (strLen p)) = n := by
  cases n with
  | mk d => exact congrArg String.mk (isPrefixOf_append_drop p.data d h)

/-- Concatenating distinct keys after the same prefix gives distinct
names. -/
theorem strCat_left_cancel (p a b : String) (h : strCat p a = strCat p b) : a = b := by
  cases a with
  | mk da =>
    cases b with
    | mk db =>
      exact congrArg String.mk (List.append_cancel_left (congrArg String.data h))

/-- No fully-qualified name of the form prefix + "x" is the name of the
current-node slot. -/
theorem strCat_x_ne_current_node (p : String) : strCat p "x" ≠ "current_node" := by
  intro h
  have h2 : (p.data ++ ['x']).getLast? = ("current_node" : String).data.getLast? :=
    congrArg (fun l => List.getLast? l) (congrArg String.data h)
  rw [List.getLast?_concat] at h2
  simp at h2

/-- Lookup after dict insert/update. -/
theorem dlookup_dset {α : Type} (d : List (String × α)) (k : String) (v : α) (k' : String) :
    dlookup (dset d k v) k' = if k' = k then some v else dlookup d k' := by
  induction d with
  | nil =>
    show (if k = k' then some v else none) = if k' = k then some v else none
    by_cases h : k = k'
    · simp [h]
    · simp [h, Ne.symm h]
  | cons p rest ih =>
    show dlookup (if p.1 = k then (k, v) :: rest else p :: dset rest k v) k' = _
    by_cases hpk : p.1 = k
    · rw [if_pos hpk]
      show (if k = k' then some v else dlookup rest k')
          = if k' = k then some v else dlookup (p :: rest) k'
      by_cases h : k = k'
      · simp [h]
      · rw [if_neg h, if_neg (Ne.symm h)]
        have hp : p.1 ≠ k' := by rw [hpk]; exact h
        simp [dlookup, hp]
    · rw [if_neg hpk]
      show (if p.1 = k' then some p.2 else dlookup (dset rest k v) k') = _
      by_cases hpk' : p.1 = k'
      · rw [if_pos hpk']
        have hk'k : ¬ k' = k := fun hh => hpk (hh ▸ hpk')
        rw [if_neg hk'k]
        simp [dlookup, hpk']
      · rw [if_neg hpk', ih]
        by_cases h : k' = k
        · simp [h]
        · rw [if_neg h, if_neg h]
          simp [dlookup, hpk']

/-- Lookup after a context-level set. -/
theorem ctxLookup_ctxSet (c : Ctx) (a : VarId) (v : Val) (b : VarId) :
    ctxLookup (ctxSet c a v) b = if b = a then some v else ctxLookup c b := by
  induction c with
  | nil =>
    show (if a = b then some v else none) = if b = a then some v else none
    by_cases h : a = b
    · simp [h]
    · simp [h, Ne.symm h]
  | cons p rest ih =>
    show ctxLookup (if p.1 = a then (a, v) :: rest else p :: ctxSet rest a v) b = _
    by_cases hpa : p.1 = a
    · rw [if_pos hpa]
      show (if a = b then some v else ctxLookup rest b)
          = if b = a then some v else ctxLookup (p :: rest) b
      by_cases h : a = b
      · simp [h]
      · rw [if_neg h, if_neg (Ne.symm h)]
        have hp : p.1 ≠ b := by rw [hpa]; exact h
        simp [ctxLookup, hp]
    · rw [if_neg hpa]
      show (if p.1 = b then some p.2 else ctxLookup (ctxSet rest a v) b) = _
      by_cases hpb : p.1 = b
      · rw [if_pos hpb]
        have hba : ¬ b = a := fun hh => hpa (hh ▸ hpb)
        rw [if_neg hba]
        simp [ctxLookup, hpb]
      · rw [if_neg hpb, ih]
        by_cases h : b = a
        · simp [h]
        · rw [if_neg h, if_neg h]
          simp [ctxLookup, hpb]

/-- Setting the same variable twice keeps only the second value. -/
theorem ctxSet_ctxSet (c : Ctx) (a : VarId) (v w : Val) :
    ctxSet (ctxSet c a v) a w = ctxSet c a w := by
  induction c with
  | nil => simp [ctxSet]
  | cons p rest ih =>
    by_cases hpa : p.1 = a
    · simp [ctxSet, hpa]
    · simp [ctxSet, hpa, ih]

/-- Re-setting a variable to the value it already maps to changes
nothing. -/
theorem ctxSet_lookup_self (c : Ctx) (a : VarId) (v : Val) (h : ctxLookup c a = some v) :
    ctxSet c a v = c := by
  induction c with
  | nil => simp [ctxLookup] at h
  | cons p rest ih =>
    by_cases hpa : p.1 = a
    · obtain ⟨p1, p2⟩ := p
      show (if (p1, p2).1 = a then (a, v) :: rest else _) = _
      rw [if_pos hpa]
      simp only [ctxLookup, if_pos hpa] at h
      have hv : p2 = v := Option.some.inj h
      subst hv
      have hp1 : p1 = a := hpa
      subst hp1
      rfl
    · simp only [ctxLookup, if_neg hpa] at h
      simp [ctxSet, hpa, ih h]

/-- A variable resolves to nothing exactly when it is not in the
context. -/
theorem ctxLookup_eq_none_iff (c : Ctx) (a : VarId) :
    ctxLookup c a = none ↔ a ∉ c.map (fun p => p.1) := by
  induction c with
  | nil => simp [ctxLookup]
  | cons p rest ih =>
    by_cases hpa : p.1 = a
    · simp [ctxLookup, hpa]
    · simp [ctxLookup, hpa, ih, Ne.symm hpa]

/-- Setting a variable that is not in the context appends its entry. -/
theorem ctxSet_of_none (c : Ctx) (a : VarId) (v : Val) (h : ctxLookup c a = none) :
    ctxSet c a v = c ++ [(a, v)] := by
  induction c with
  | nil => rfl
  | cons p rest ih =>
    by_cases hpa : p.1 = a
    · simp [ctxLookup, hpa] at h
    · simp only [ctxLookup, if_neg hpa] at h
      simp [ctxSet, hpa, ih h]

/-- Deleting a variable that is not in the context changes nothing. -/
theorem ctxDel_of_none (c : Ctx) (a : VarId) (h : ctxLookup c a = none) :
    ctxDel c a = c := by
  have h1 : ∀ p ∈ c, (fun q : VarId × Val => decide (q.1 ≠ a)) p = true := by
    intro p hp
    simp only [decide_eq_true_eq]
    intro he
    exact (ctxLookup_eq_none_iff c a).mp h (List.mem_map.mpr ⟨p, hp, he⟩)
  exact List.filter_eq_self.mpr h1

/-- Deleting a freshly appended variable recovers the original context. -/
theorem ctxDel_ctxSet_of_none (c : Ctx) (a : VarId) (v : Val) (h : ctxLookup c a = none) :
    ctxDel (ctxSet c a v) a = c := by
  rw [ctxSet_of_none c a v h]
  show (c ++ [(a, v)]).filter (fun p => decide (p.1 ≠ a)) = c
  rw [List.filter_append]
  have h1 : ∀ p ∈ c, (fun q : VarId × Val => decide (q.1 ≠ a)) p = true := by
    intro p hp
    have := (ctxLookup_eq_none_iff c a).mp h
    simp only [decide_eq_true_eq]
    intro he
    exact this (List.mem_map.mpr ⟨p, hp, he⟩)
  rw [List.filter_eq_self.mpr h1]
  simp

/-- Undoing a set with the token it issued recovers the original
context. -/
theorem restoreCtx_ctxSet_self (c : Ctx) (a : VarId) (v : Val) :
    restoreCtx (ctxSet c a v) a (ctxLookup c a) = c := by
  cases h : ctxLookup c a with
  | none => exact ctxDel_ctxSet_of_none c a v h
  | some w =>
    show ctxSet (ctxSet c a v) a w = c
    rw [ctxSet_ctxSet]
    exact ctxSet_lookup_self c a w h

/-- Lookup after a context-level delete. -/
theorem ctxLookup_ctxDel (c : Ctx) (a b : VarId) :
    ctxLookup (ctxDel c a) b = if b = a then none else ctxLookup c b := by
  induction c with
  | nil => simp [ctxDel, ctxLookup]
  | cons p rest ih =>
    by_cases hpa : p.1 = a
    · have : (fun q : VarId × Val => decide (q.1 ≠ a)) p = false := by simp [hpa]
      simp only [ctxDel, List.filter_cons, this, cond_false]
      show ctxLookup (ctxDel rest a) b = _
      rw [ih]
      by_cases h : b = a
      · simp [h]
      · rw [if_neg h, if_neg h]
        have hp : p.1 ≠ b := by rw [hpa]; exact fun hh => h hh.symm
        simp [ctxLookup, hp]
    · have : (fun q : VarId × Val => decide (q.1 ≠ a)) p = true := by simp [hpa]
      simp only [ctxDel, List.filter_cons, this, cond_true]
      by_cases hpb : p.1 = b
      · have hba : ¬ b = a := fun hh => hpa (hh ▸ hpb)
        simp [ctxLookup, hpb, hba]
      · show (if p.1 = b then some p.2 else ctxLookup (ctxDel rest a) b) = _
        rw [if_neg hpb, ih]
        by_cases h : b = a
        · simp [h]
        · rw [if_neg h, if_neg h]
          simp [ctxLookup, hpb]

/-- Restoring one variable does not change any other variable. -/
theorem ctxLookup_restoreCtx_other (c : Ctx) (a : VarId) (old : Option Val) (b : VarId)
    (h : b ≠ a) : ctxLookup (restoreCtx c a old) b = ctxLookup c b := by
  cases old with
  | none =>
    show ctxLookup (ctxDel c a) b = _
    rw [ctxLookup_ctxDel, if_neg h]
  | some w =>
    show ctxLookup (ctxSet c a w) b = _
    rw [ctxLookup_ctxSet, if_neg h]

/-- Keys of the context after a set: unchanged, or the new variable
appended. -/
theorem ctxSet_map_fst (c : Ctx) (a : VarId) (v : Val) :
    (ctxSet c a v).map (fun p => p.1)
      = if ctxLookup c a = none then c.map (fun p => p.1) ++ [a]
        else c.map (fun p => p.1) := by
  induction c with
  | nil => simp [ctxSet, ctxLookup]
  | cons p rest ih =>
    show (if p.1 = a then (a, v) :: rest else p :: ctxSet rest a v).map (fun p => p.1) = _
    by_cases hpa : p.1 = a
    · have hl : ctxLookup (p :: rest) a = some p.2 := by simp [ctxLookup, hpa]
      rw [if_pos hpa, hl]
      simp [hpa]
    · have hl : ctxLookup (p :: rest) a = ctxLookup rest a := by simp [ctxLookup, hpa]
      rw [if_neg hpa, List.map_cons, ih, hl]
      by_cases h2 : ctxLookup rest a = none
      · simp [h2]
      · simp [h2]

/-- A context-level set preserves key distinctness. -/
theorem WFc_ctxSet (c : Ctx) (a : VarId) (v : Val) (h : WFc c) : WFc (ctxSet c a v) := by
  show ((ctxSet c a v).map (fun p => p.1)).Nodup
  rw [ctxSet_map_fst]
  by_cases h2 : ctxLookup c a = none
  · rw [if_pos h2]
    have ha : a ∉ c.map (fun p => p.1) := (ctxLookup_eq_none_iff c a).mp h2
    have h3 : (c.map (fun p => p.1)).Nodup := h
    simp [List.nodup_append, h3, ha]
  · rw [if_neg h2]
    exact h

/-- A context-level delete preserves key distinctness. -/
theorem WFc_ctxDel (c : Ctx) (a : VarId) (h : WFc c) : WFc (ctxDel c a) := by
  show ((c.filter (fun p => decide (p.1 ≠ a))).map (fun p => p.1)).Nodup
  exact h.sublist ((List.filter_sublist c).map (fun p => p.1))

/-- A context-level restore preserves key distinctness. -/
theorem WFc_restoreCtx (c : Ctx) (a : VarId) (old : Option Val) (h : WFc c) :
    WFc (restoreCtx c a old) := by
  cases old with
  | none => exact WFc_ctxDel c a h
  | some w => exact WFc_ctxSet c a w h

/-- Unfolding of lastMatch on a cons. -/
theorem lastMatch_cons (pfx key : String) (p : VarId × Val) (rest : Ctx) :
    lastMatch pfx key (p :: rest)
      = (lastMatch pfx key rest).elim
          (if matchesKey pfx key p then some p else none) some := by
  cases hl : lastMatch pfx key rest with
  | some q => simp [lastMatch, hl]
  | none => simp [lastMatch, hl]

/-- Lookup in the get_contextvars loop result: the binding comes from
the last contributing context entry, else from the accumulator. -/
theorem dlookup_getvarsAux (pfx key : String) (c : Ctx) (rv : List (String × Val)) :
    dlookup (getvarsAux pfx c rv) key =
      (lastMatch pfx key c).elim (dlookup rv key) (fun q => some q.2) := by
  induction c generalizing rv with
  | nil => rfl
  | cons p rest ih =>
    have hunfold : getvarsAux pfx (p :: rest) rv = getvarsAux pfx rest
        (if visibleUnder pfx p then dset rv (strDrop (varName p.1) (strLen pfx)) p.2
         else rv) := rfl
    rw [hunfold, ih, lastMatch_cons]
    cases hl : lastMatch pfx key rest with
    | some q => simp
    | none =>
      simp only [Option.elim]
      by_cases hv : visibleUnder pfx p = true
      · rw [if_pos hv, dlookup_dset]
        by_cases hk : strDrop (varName p.1) (strLen pfx) = key
        · have hm : matchesKey pfx key p = true := by simp [matchesKey, hv, hk]
          simp [hm, hk]
        · have hm : matchesKey pfx key p = false := by simp [matchesKey, hk]
          have hk2 : ¬ key = strDrop (varName p.1) (strLen pfx) := fun hh => hk hh.symm
          simp [hm, hk2]
      · have hv2 : visibleUnder pfx p = false := by
          revert hv; cases visibleUnder pfx p <;> simp
        have hm : matchesKey pfx key p = false := by simp [matchesKey, hv2]
        simp [hv2, hm]

/-- Reading a key gives the value of the last contributing context
entry. -/
theorem readKey_eq_lastMatch (pfx key : String) (s : Store) :
    readKey pfx key s = (lastMatch pfx key s.ctx).map (fun q => q.2) := by
  show dlookup (getvarsAux pfx s.ctx []) key = _
  rw [dlookup_getvarsAux]
  cases lastMatch pfx key s.ctx <;> rfl

/-- An entry contributes to a key exactly when its name is the prefix
followed by the key and its value is not the sentinel. -/
theorem matchesKey_true_iff (pfx key : String) (p : VarId × Val) :
    matchesKey pfx key p = true ↔ varName p.1 = strCat pfx key ∧ p.2 ≠ Val.ellipsis := by
  unfold matchesKey visibleUnder
  simp only [Bool.and_eq_true, decide_eq_true_eq]
  constructor
  · rintro ⟨⟨hsw, hne⟩, hdrop⟩
    refine ⟨?_, hne⟩
    rw [← hdrop]
    exact (strCat_of_startsWith (varName p.1) pfx hsw).symm
  · rintro ⟨hnm, hne⟩
    refine ⟨⟨?_, hne⟩, ?_⟩
    · rw [hnm]; exact strStartsWith_strCat pfx key
    · rw [hnm]; exact strDrop_strCat pfx key

/-- If no entry contributes, there is no last contributing entry. -/
theorem lastMatch_eq_none (pfx key : String) (c : Ctx)
    (h : ∀ p ∈ c, matchesKey pfx key p = false) : lastMatch pfx key c = none := by
  induction c with
  | nil => rfl
  | cons p rest ih =>
    show (match lastMatch pfx key rest with
        | some q => some q
        | none => if matchesKey pfx key p then some p else none) = none
    rw [ih (fun q hq => h q (List.mem_cons_of_mem p hq))]
    simp [h p (List.mem_cons_self p rest)]

/-- Only the registry variable of the full name, or the current-node
slot, can contribute to a key. -/
theorem matchesKey_varId (pfx key : String) (p : VarId × Val)
    (h : matchesKey pfx key p = true) :
    p.1 = VarId.reg (strCat pfx key) ∨ p.1 = VarId.currentNodeVar := by
  have h1 := (matchesKey_true_iff pfx key p).mp h
  cases hp : p.1 with
  | reg nm =>
    left
    rw [hp] at h1
    exact congrArg VarId.reg h1.1
  | currentNodeVar =>
    right
    rfl

/-- visValue past a non-matching head entry. -/
theorem visValue_cons_other (p : VarId × Val) (rest : Ctx) (a : VarId) (h : p.1 ≠ a) :
    visValue (p :: rest) a = visValue rest a := by
  unfold visValue
  simp [ctxLookup, h]

/-- visValue at a matching head entry. -/
theorem visValue_cons_self (p : VarId × Val) (rest : Ctx) (a : VarId) (h : p.1 = a) :
    visValue (p :: rest) a = if p.2 = Val.ellipsis then none else some p.2 := by
  unfold visValue
  simp [ctxLookup, h]

/-- Under a duplicate-free context with no interference from the
current-node slot, the last contributing entry for a key is exactly the
sentinel-filtered value of the registry variable named prefix+key. -/
theorem lastMatch_eq_visValue (pfx key : String) (c : Ctx) (hW : WFc c)
    (hcn : ∀ p ∈ c, p.1 = VarId.currentNodeVar → matchesKey pfx key p = false) :
    (lastMatch pfx key c).map (fun q => q.2) = visValue c (VarId.reg (strCat pfx key)) := by
  induction c with
  | nil => rfl
  | cons p rest ih =>
    have hW2 : (List.map (fun q : VarId × Val => q.1) (p :: rest)).Nodup := hW
    rw [List.map_cons, List.nodup_cons] at hW2
    have hWr : WFc rest := hW2.2
    have hpn : p.1 ∉ rest.map (fun q => q.1) := hW2.1
    have hcnr : ∀ q ∈ rest, q.1 = VarId.currentNodeVar → matchesKey pfx key q = false :=
      fun q hq => hcn q (List.mem_cons_of_mem p hq)
    by_cases hpa : p.1 = VarId.reg (strCat pfx key)
    · have hnone : lastMatch pfx key rest = none := by
        apply lastMatch_eq_none
        intro q hq
        cases hm : matchesKey pfx key q with
        | false => rfl
        | true =>
          exfalso
          rcases matchesKey_varId pfx key q hm with h1 | h1
          · have hq1 : q.1 = p.1 := by rw [h1, hpa]
            exact hpn (hq1 ▸ List.mem_map.mpr ⟨q, hq, rfl⟩)
          · have := hcnr q hq h1
            rw [this] at hm
            exact Bool.noConfusion hm
      rw [lastMatch_cons, hnone, visValue_cons_self p rest _ hpa]
      by_cases hm : matchesKey pfx key p = true
      · have h2 := (matchesKey_true_iff pfx key p).mp hm
        simp [hm, h2.2]
      · have hmf : matchesKey pfx key p = false := by
          revert hm; cases matchesKey pfx key p <;> simp
        have hpe : p.2 = Val.ellipsis := by
          by_contra hne
          have hmt : matchesKey pfx key p = true :=
            (matchesKey_true_iff pfx key p).mpr ⟨by rw [hpa]; rfl, hne⟩
          rw [hmt] at hmf
          exact Bool.noConfusion hmf
        simp [hmf, hpe]
    · have hmf : matchesKey pfx key p = false := by
        cases hm : matchesKey pfx key p with
        | false => rfl
        | true =>
          exfalso
          rcases matchesKey_varId pfx key p hm with h1 | h1
          · exact hpa h1
          · have := hcn p (List.mem_cons_self p rest) h1
            rw [this] at hm
            exact Bool.noConfusion hm
      rw [lastMatch_cons, visValue_cons_other p rest _ hpa, ← ih hWr hcnr]
      cases lastMatch pfx key rest <;> simp [hmf]

/-- Reading a key under a duplicate-free context with no current-node
interference gives the sentinel-filtered value of the registry variable
named prefix+key. -/
theorem readKey_visValue (pfx key : String) (s : Store) (hW : WFc s.ctx)
    (hcn : ∀ p ∈ s.ctx, p.1 = VarId.currentNodeVar → matchesKey pfx key p = false) :
    readKey pfx key s = visValue s.ctx (VarId.reg (strCat pfx key)) := by
  rw [readKey_eq_lastMatch]
  exact lastMatch_eq_visValue pfx key s.ctx hW hcn

/-- The current-node slot never contributes to the key "x" under any
prefix: its name cannot be a prefix followed by "x". -/
theorem matchesKey_x_currentNode (P : String) (c : Ctx) :
    ∀ p ∈ c, p.1 = VarId.currentNodeVar → matchesKey P "x" p = false := by
  intro p _ h1
  cases hm : matchesKey P "x" p with
  | false => rfl
  | true =>
    exfalso
    have h2 := (matchesKey_true_iff P "x" p).mp hm
    rw [h1] at h2
    exact strCat_x_ne_current_node P h2.1.symm

/-- setOne registers the name it sets. -/
theorem setOne_registry_mem (pfx k : String) (v : Val) (s : Store) :
    strCat pfx k ∈ (setOne pfx k v s).2.registry := by
  show strCat pfx k ∈
    (if strCat pfx k ∈ s.registry then s.registry else s.registry ++ [strCat pfx k])
  by_cases h : strCat pfx k ∈ s.registry
  · rw [if_pos h]; exact h
  · rw [if_neg h]
    exact List.mem_append_right _ (by simp)

/-- setOne never removes registry entries. -/
theorem setOne_registry_mono (pfx k : String) (v : Val) (s : Store) (nm : String)
    (h : nm ∈ s.registry) : nm ∈ (setOne pfx k v s).2.registry := by
  show nm ∈ (if strCat pfx k ∈ s.registry then s.registry else s.registry ++ [strCat pfx k])
  by_cases h2 : strCat pfx k ∈ s.registry
  · rw [if_pos h2]; exact h
  · rw [if_neg h2]; exact List.mem_append_left _ h

/-- set_contextvars never removes registry entries. -/
theorem set_registry_mono (pfx : String) (kwargs : List (String × Val)) (s : Store)
    (nm : String) (h : nm ∈ s.registry) :
    nm ∈ (set_contextvars pfx kwargs s).2.registry := by
  induction kwargs generalizing s with
  | nil => exact h
  | cons kv rest ih =>
    obtain ⟨k0, v0⟩ := kv
    exact ih (setOne pfx k0 v0 s).2 (setOne_registry_mono pfx k0 v0 s nm h)

/-- set_contextvars registers every key it sets. -/
theorem set_registry_key_mem (pfx : String) (kwargs : List (String × Val)) (s : Store)
    (k : String) (h : k ∈ kwargs.map (fun q => q.1)) :
    strCat pfx k ∈ (set_contextvars pfx kwargs s).2.registry := by
  induction kwargs generalizing s with
  | nil => simp at h
  | cons kv rest ih =>
    obtain ⟨k0, v0⟩ := kv
    rw [List.map_cons, List.mem_cons] at h
    rcases h with h | h
    · subst h
      exact set_registry_mono pfx rest _ _ (setOne_registry_mem pfx k v0 s)
    · exact ih (setOne pfx k0 v0 s).2 h

/-- set_contextvars leaves variables it does not target unchanged. -/
theorem set_lookup_other (pfx : String) (kwargs : List (String × Val)) (s : Store)
    (a : VarId) (h : ∀ k ∈ kwargs.map (fun q => q.1), VarId.reg (strCat pfx k) ≠ a) :
    ctxLookup (set_contextvars pfx kwargs s).2.ctx a = ctxLookup s.ctx a := by
  induction kwargs generalizing s with
  | nil => rfl
  | cons kv rest ih =>
    obtain ⟨k0, v0⟩ := kv
    have h0 : VarId.reg (strCat pfx k0) ≠ a := h k0 (by simp)
    have hr : ∀ k ∈ rest.map (fun q => q.1), VarId.reg (strCat pfx k) ≠ a :=
      fun k hk => h k (by simp [hk])
    show ctxLookup (set_contextvars pfx rest (setOne pfx k0 v0 s).2).2.ctx a = _
    rw [ih (setOne pfx k0 v0 s).2 hr]
    show ctxLookup (ctxSet s.ctx (VarId.reg (strCat pfx k0)) v0) a = _
    rw [ctxLookup_ctxSet, if_neg (Ne.symm h0)]

/-- set_contextvars gives each of its keys the value passed for it. -/
theorem set_lookup_mem (pfx : String) (kwargs : List (String × Val)) (s : Store)
    (k : String) (v : Val) (hnd : (kwargs.map (fun q => q.1)).Nodup)
    (hkv : (k, v) ∈ kwargs) :
    ctxLookup (set_contextvars pfx kwargs s).2.ctx (VarId.reg (strCat pfx k)) = some v := by
  induction kwargs generalizing s with
  | nil => simp at hkv
  | cons kv rest ih =>
    obtain ⟨k0, v0⟩ := kv
    rw [List.map_cons, List.nodup_cons] at hnd
    rcases List.mem_cons.mp hkv with h | h
    · injection h with hk hv
      subst hk
      subst hv
      have hother : ∀ k' ∈ rest.map (fun q => q.1),
          VarId.reg (strCat pfx k') ≠ VarId.reg (strCat pfx k) := by
        intro k' hk' hh
        have h2 : strCat pfx k' = strCat pfx k := by injection hh
        have he : k' = k := strCat_left_cancel pfx k' k h2
        exact hnd.1 (he ▸ hk')
      show ctxLookup (set_contextvars pfx rest (setOne pfx k v s).2).2.ctx _ = _
      rw [set_lookup_other pfx rest _ _ hother]
      show ctxLookup (ctxSet s.ctx (VarId.reg (strCat pfx k)) v) _ = _
      rw [ctxLookup_ctxSet, if_pos rfl]
    · exact ih (setOne pfx k0 v0 s).2 hnd.2 h

/-- set_contextvars preserves key distinctness of the context. -/
theorem WFc_set (pfx : String) (kwargs : List (String × Val)) (s : Store)
    (h : WFc s.ctx) : WFc (set_contextvars pfx kwargs s).2.ctx := by
  induction kwargs generalizing s with
  | nil => exact h
  | cons kv rest ih =>
    obtain ⟨k0, v0⟩ := kv
    exact ih (setOne pfx k0 v0 s).2 (WFc_ctxSet s.ctx _ v0 h)

/-- unsetOne does not touch the registry. -/
theorem unsetOne_registry (pfx k : String) (s : Store) :
    (unsetOne pfx k s).registry = s.registry := by
  unfold unsetOne
  by_cases h : strCat pfx k ∈ s.registry <;> simp [h]

/-- unset_contextvars does not touch the registry. -/
theorem unset_registry (pfx : String) (keys : List String) (s : Store) :
    (unset_contextvars pfx keys s).registry = s.registry := by
  induction keys generalizing s with
  | nil => rfl
  | cons k rest ih =>
    show (unset_contextvars pfx rest (unsetOne pfx k s)).registry = _
    rw [ih (unsetOne pfx k s), unsetOne_registry]

/-- unsetOne preserves key distinctness of the context. -/
theorem WFc_unsetOne (pfx k : String) (s : Store) (h : WFc s.ctx) :
    WFc (unsetOne pfx k s).ctx := by
  unfold unsetOne
  by_cases h2 : strCat pfx k ∈ s.registry
  · rw [if_pos h2]
    exact WFc_ctxSet s.ctx _ _ h
  · rw [if_neg h2]
    exact h

/-- unset_contextvars preserves key distinctness of the context. -/
theorem WFc_unset (pfx : String) (keys : List String) (s : Store) (h : WFc s.ctx) :
    WFc (unset_contextvars pfx keys s).ctx := by
  induction keys generalizing s with
  | nil => exact h
  | cons k rest ih => exact ih (unsetOne pfx k s) (WFc_unsetOne pfx k s h)

/-- unsetOne leaves variables it does not target unchanged. -/
theorem unsetOne_lookup_other (pfx k : String) (s : Store) (a : VarId)
    (h : VarId.reg (strCat pfx k) ≠ a) :
    ctxLookup (unsetOne pfx k s).ctx a = ctxLookup s.ctx a := by
  unfold unsetOne
  by_cases h2 : strCat pfx k ∈ s.registry
  · rw [if_pos h2]
    show ctxLookup (ctxSet s.ctx (VarId.reg (strCat pfx k)) Val.ellipsis) a = _
    rw [ctxLookup_ctxSet, if_neg (Ne.symm h)]
  · rw [if_neg h2]

/-- unset_contextvars leaves variables it does not target unchanged. -/
theorem unset_lookup_other (pfx : String) (keys : List String) (s : Store) (a : VarId)
    (h : ∀ k ∈ keys, VarId.reg (strCat pfx k) ≠ a) :
    ctxLookup (unset_contextvars pfx keys s).ctx a = ctxLookup s.ctx a := by
  induction keys generalizing s with
  | nil => rfl
  | cons k rest ih =>
    show ctxLookup (unset_contextvars pfx rest (unsetOne pfx k s)).ctx a = _
    rw [ih (unsetOne pfx k s) (fun k2 hk => h k2 (by simp [hk]))]
    exact unsetOne_lookup_other pfx k s a (h k (by simp))

/-- A variable already holding the sentinel keeps it through
unset_contextvars. -/
theorem unset_lookup_ellipsis_pres (pfx : String) (keys : List String) (s : Store)
    (a : VarId) (h : ctxLookup s.ctx a = some Val.ellipsis) :
    ctxLookup (unset_contextvars pfx keys s).ctx a = some Val.ellipsis := by
  induction keys generalizing s with
  | nil => exact h
  | cons k rest ih =>
    apply ih (unsetOne pfx k s)
    unfold unsetOne
    by_cases h2 : strCat pfx k ∈ s.registry
    · rw [if_pos h2]
      show ctxLookup (ctxSet s.ctx (VarId.reg (strCat pfx k)) Val.ellipsis) a = _
      rw [ctxLookup_ctxSet]
      by_cases h3 : a = VarId.reg (strCat pfx k)
      · rw [if_pos h3]
      · rw [if_neg h3]
        exact h
    · rw [if_neg h2]
      exact h

/-- After unset_contextvars every targeted registered variable holds the
sentinel. -/
theorem unset_lookup_mem (pfx : String) (keys : List String) (s : Store) (k : String)
    (hk : k ∈ keys) (hr : strCat pfx k ∈ s.registry) :
    ctxLookup (unset_contextvars pfx keys s).ctx (VarId.reg (strCat pfx k))
      = some Val.ellipsis := by
  induction keys generalizing s with
  | nil => simp at hk
  | cons k0 rest ih =>
    show ctxLookup (unset_contextvars pfx rest (unsetOne pfx k0 s)).ctx _ = _
    rcases List.mem_cons.mp hk with h | h
    · subst h
      apply unset_lookup_ellipsis_pres
      unfold unsetOne
      rw [if_pos hr]
      show ctxLookup (ctxSet s.ctx (VarId.reg (strCat pfx k)) Val.ellipsis) _ = _
      rw [ctxLookup_ctxSet, if_pos rfl]
    · apply ih (unsetOne pfx k0 s) h
      rw [unsetOne_registry]
      exact hr

/-- unset_contextvars is the identity when every targeted registered
variable already holds the sentinel. -/
theorem unset_noop (pfx : String) (keys : List String) (s : Store)
    (h : ∀ k ∈ keys, strCat pfx k ∈ s.registry →
      ctxLookup s.ctx (VarId.reg (strCat pfx k)) = some Val.ellipsis) :
    unset_contextvars pfx keys s = s := by
  induction keys with
  | nil => rfl
  | cons k0 rest ih =>
    have h1 : unsetOne pfx k0 s = s := by
      unfold unsetOne
      by_cases h2 : strCat pfx k0 ∈ s.registry
      · rw [if_pos h2]
        have h3 : ctxSet s.ctx (VarId.reg (strCat pfx k0)) Val.ellipsis = s.ctx :=
          ctxSet_lookup_self s.ctx _ _ (h k0 (by simp) h2)
        rw [h3]
      · rw [if_neg h2]
    show unset_contextvars pfx rest (unsetOne pfx k0 s) = s
    rw [h1]
    exact ih (fun k hk => h k (by simp [hk]))

/-- A successful dict lookup exhibits a member. -/
theorem dlookup_some_mem {α : Type} (d : List (String × α)) (k : String) (v : α)
    (h : dlookup d k = some v) : (k, v) ∈ d := by
  induction d with
  | nil => exact Option.noConfusion h
  | cons p rest ih =>
    by_cases hpk : p.1 = k
    · obtain ⟨p1, p2⟩ := p
      simp only [dlookup, if_pos hpk] at h
      have h2 : p2 = v := Option.some.inj h
      have h1 : p1 = k := hpk
      subst h1
      subst h2
      exact List.mem_cons_self _ _
    · simp only [dlookup, if_neg hpk] at h
      exact List.mem_cons_of_mem p (ih h)

/-- A member's key is bound in the dict. -/
theorem dlookup_isSome_of_mem {α : Type} (d : List (String × α)) (p : String × α)
    (h : p ∈ d) : dlookup d p.1 ≠ none := by
  induction d with
  | nil => simp at h
  | cons p0 rest ih =>
    rcases List.mem_cons.mp h with h2 | h2
    · subst h2
      simp [dlookup]
    · by_cases hpk : p0.1 = p.1
      · simp [dlookup, hpk]
      · simp only [dlookup, if_neg hpk]
        exact ih h2

/-- A context lookup result is an entry of the context. -/
theorem ctxLookup_mem (c : Ctx) (a : VarId) (v : Val) (h : ctxLookup c a = some v) :
    (a, v) ∈ c := by
  induction c with
  | nil => exact Option.noConfusion h
  | cons p rest ih =>
    by_cases hpa : p.1 = a
    · obtain ⟨p1, p2⟩ := p
      simp only [ctxLookup, if_pos hpa] at h
      have h2 : p2 = v := Option.some.inj h
      have h1 : p1 = a := hpa
      subst h1
      subst h2
      exact List.mem_cons_self _ _
    · simp only [ctxLookup, if_neg hpa] at h
      exact List.mem_cons_of_mem p (ih h)

/-- Entries after a context-level set: the new binding or an old entry. -/
theorem mem_ctxSet (c : Ctx) (a : VarId) (v : Val) (p : VarId × Val)
    (hp : p ∈ ctxSet c a v) : p = (a, v) ∨ p ∈ c := by
  induction c with
  | nil =>
    simp [ctxSet] at hp
    exact Or.inl hp
  | cons p0 rest ih =>
    by_cases h : p0.1 = a
    · rw [show ctxSet (p0 :: rest) a v = (a, v) :: rest from by simp [ctxSet, h]] at hp
      rcases List.mem_cons.mp hp with h2 | h2
      · exact Or.inl h2
      · exact Or.inr (List.mem_cons_of_mem p0 h2)
    · rw [show ctxSet (p0 :: rest) a v = p0 :: ctxSet rest a v from by simp [ctxSet, h]] at hp
      rcases List.mem_cons.mp hp with h2 | h2
      · exact Or.inr (h2 ▸ List.mem_cons_self p0 rest)
      · rcases ih h2 with h3 | h3
        · exact Or.inl h3
        · exact Or.inr (List.mem_cons_of_mem p0 h3)

/-- A contributing member forces a last contributing entry to exist. -/
theorem lastMatch_isSome (pfx key : String) (c : Ctx) (p : VarId × Val) (hp : p ∈ c)
    (hm : matchesKey pfx key p = true) : ∃ q, lastMatch pfx key c = some q := by
  induction c with
  | nil => simp at hp
  | cons p0 rest ih =>
    rw [lastMatch_cons]
    rcases List.mem_cons.mp hp with h | h
    · cases hl : lastMatch pfx key rest with
      | some q => exact ⟨q, rfl⟩
      | none =>
        refine ⟨p, ?_⟩
        rw [← h]
        simp [hm]
    · obtain ⟨q, hq⟩ := ih h
      rw [hq]
      exact ⟨q, rfl⟩

/-- A visible value is never the sentinel. -/
theorem visValue_some_ne (c : Ctx) (a : VarId) (v : Val) (h : visValue c a = some v) :
    v ≠ Val.ellipsis := by
  unfold visValue at h
  cases hl : ctxLookup c a with
  | none =>
    rw [hl] at h
    exact Option.noConfusion h
  | some w =>
    rw [hl] at h
    have h2 : (if w = Val.ellipsis then (none : Option Val) else some w) = some v := h
    by_cases he : w = Val.ellipsis
    · rw [if_pos he] at h2
      exact Option.noConfusion h2
    · rw [if_neg he] at h2
      exact (Option.some.inj h2) ▸ he

/-- visValue through a known lookup result. -/
theorem visValue_lookup_some (c : Ctx) (a : VarId) (v : Val) (h : ctxLookup c a = some v) :
    visValue c a = if v = Val.ellipsis then none else some v := by
  unfold visValue
  rw [h]

/-- A registry variable for a different key of the same prefix never
contributes to this key. -/
theorem matchesKey_reg_other (pfx key k2 : String) (h : k2 ≠ key) (w : Val) :
    matchesKey pfx key (VarId.reg (strCat pfx k2), w) = false := by
  cases hm : matchesKey pfx key (VarId.reg (strCat pfx k2), w) with
  | false => rfl
  | true =>
    exfalso
    have h2 := (matchesKey_true_iff pfx key (VarId.reg (strCat pfx k2), w)).mp hm
    exact h (strCat_left_cancel pfx k2 key h2.1)

/-- Setting a variable that never contributes to a key leaves that key's
last contributing entry unchanged. -/
theorem lastMatch_ctxSet_no (pfx key : String) (c : Ctx) (a : VarId) (v : Val)
    (h : ∀ w : Val, matchesKey pfx key (a, w) = false) :
    lastMatch pfx key (ctxSet c a v) = lastMatch pfx key c := by
  induction c with
  | nil =>
    show lastMatch pfx key [(a, v)] = none
    rw [lastMatch_cons]
    simp [lastMatch, h v]
  | cons p rest ih =>
    by_cases hpa : p.1 = a
    · rw [show ctxSet (p :: rest) a v = (a, v) :: rest from by simp [ctxSet, hpa]]
      rw [lastMatch_cons, lastMatch_cons]
      cases lastMatch pfx key rest with
      | some q => rfl
      | none =>
        have hp : matchesKey pfx key p = false := by
          obtain ⟨p1, p2⟩ := p
          have h1 : p1 = a := hpa
          subst h1
          exact h p2
        simp [h v, hp]
    · rw [show ctxSet (p :: rest) a v = p :: ctxSet rest a v from by simp [ctxSet, hpa]]
      rw [lastMatch_cons, lastMatch_cons, ih]

/-- set_contextvars for keys not including this key leaves the key's
last contributing entry unchanged. -/
theorem lastMatch_set_not_key (pfx : String) (kwargs : List (String × Val)) (s : Store)
    (key : String) (hk : key ∉ kwargs.map (fun q => q.1)) :
    lastMatch pfx key (set_contextvars pfx kwargs s).2.ctx = lastMatch pfx key s.ctx := by
  induction kwargs generalizing s with
  | nil => rfl
  | cons kv rest ih =>
    obtain ⟨k0, v0⟩ := kv
    have hk0 : k0 ≠ key := by
      intro hh
      exact hk (by simp [hh])
    have hkr : key ∉ rest.map (fun q => q.1) := by
      intro hh
      exact hk (by simp [hh])
    show lastMatch pfx key (set_contextvars pfx rest (setOne pfx k0 v0 s).2).2.ctx = _
    rw [ih (setOne pfx k0 v0 s).2 hkr]
    show lastMatch pfx key (ctxSet s.ctx (VarId.reg (strCat pfx k0)) v0) = _
    exact lastMatch_ctxSet_no pfx key s.ctx _ v0 (matchesKey_reg_other pfx key k0 hk0)

/-- A current-node entry surviving set_contextvars was already in the
context. -/
theorem set_ctx_mem_currentNode (pfx : String) (kwargs : List (String × Val)) (s : Store)
    (p : VarId × Val) (hp : p ∈ (set_contextvars pfx kwargs s).2.ctx)
    (hcn : p.1 = VarId.currentNodeVar) : p ∈ s.ctx := by
  induction kwargs generalizing s with
  | nil => exact hp
  | cons kv rest ih =>
    obtain ⟨k0, v0⟩ := kv
    have h2 : p ∈ (setOne pfx k0 v0 s).2.ctx := ih (setOne pfx k0 v0 s).2 hp
    have h3 : p ∈ ctxSet s.ctx (VarId.reg (strCat pfx k0)) v0 := h2
    rcases mem_ctxSet s.ctx _ v0 p h3 with h4 | h4
    · exfalso
      rw [h4] at hcn
      exact VarId.noConfusion hcn
    · exact h4

/-- Dict keys after an insert/update: unchanged, or the new key
appended. -/
theorem dset_map_fst {α : Type} (d : List (String × α)) (k : String) (v : α) :
    (dset d k v).map (fun p => p.1)
      = if (dlookup d k).isNone then d.map (fun p => p.1) ++ [k]
        else d.map (fun p => p.1) := by
  induction d with
  | nil => simp [dset, dlookup]
  | cons p rest ih =>
    show (if p.1 = k then (k, v) :: rest else p :: dset rest k v).map (fun p => p.1) = _
    by_cases hpk : p.1 = k
    · have hl : dlookup (p :: rest) k = some p.2 := by simp [dlookup, hpk]
      rw [if_pos hpk, hl]
      simp [hpk]
    · have hl : dlookup (p :: rest) k = dlookup rest k := by simp [dlookup, hpk]
      rw [if_neg hpk, List.map_cons, ih, hl]
      cases h2 : dlookup rest k with
      | none => simp [h2]
      | some w => simp [h2]

/-- A key absent from the dict is unbound. -/
theorem dlookup_eq_none_iff {α : Type} (d : List (String × α)) (k : String) :
    dlookup d k = none ↔ k ∉ d.map (fun p => p.1) := by
  induction d with
  | nil => simp [dlookup]
  | cons p rest ih =>
    by_cases hpk : p.1 = k
    · simp [dlookup, hpk]
    · simp [dlookup, hpk, ih, Ne.symm hpk]

/-- Insert/update preserves dict key distinctness. -/
theorem dset_keys_nodup {α : Type} (d : List (String × α)) (k : String) (v : α)
    (h : (d.map (fun p => p.1)).Nodup) : ((dset d k v).map (fun p => p.1)).Nodup := by
  rw [dset_map_fst]
  cases h2 : dlookup d k with
  | none =>
    have ha : k ∉ d.map (fun p => p.1) := (dlookup_eq_none_iff d k).mp h2
    simp [List.nodup_append, h, ha]
  | some w =>
    simpa using h

/-- The get_contextvars loop preserves dict key distinctness. -/
theorem getvars_keys_nodup (pfx : String) (c : Ctx) (rv : List (String × Val))
    (h : (rv.map (fun p => p.1)).Nodup) :
    ((getvarsAux pfx c rv).map (fun p => p.1)).Nodup := by
  induction c generalizing rv with
  | nil => exact h
  | cons p rest ih =>
    show ((getvarsAux pfx rest
      (if visibleUnder pfx p then dset rv (strDrop (varName p.1) (strLen pfx)) p.2
       else rv)).map (fun p => p.1)).Nodup
    by_cases hv : visibleUnder pfx p = true
    · rw [if_pos hv]
      exact ih _ (dset_keys_nodup rv _ p.2 h)
    · rw [if_neg hv]
      exact ih rv h

/-- The result of get_contextvars is a dict: its keys are distinct. -/
theorem get_keys_nodup (pfx : String) (s : Store) :
    ((get_contextvars pfx s).map (fun p => p.1)).Nodup :=
  getvars_keys_nodup pfx s.ctx [] (by simp)

/-- The saved subset is a dict with distinct keys. -/
theorem scope_saved_keys_nodup (pfx : String) (kwargs : List (String × Val)) (s : Store) :
    ((scope_saved pfx kwargs s).map (fun p => p.1)).Nodup :=
  (get_keys_nodup pfx s).sublist
    ((List.filter_sublist (get_contextvars pfx s)).map (fun p => p.1))

/-- Lookup in a dict filtered by a key predicate. -/
theorem dlookup_filter_keys {α : Type} (d : List (String × α)) (q : String → Bool)
    (k : String) :
    dlookup (d.filter (fun p => q p.1)) k = if q k then dlookup d k else none := by
  induction d with
  | nil =>
    cases q k <;> simp [dlookup]
  | cons p rest ih =>
    by_cases hq : q p.1 = true
    · have hc : (fun p2 : String × α => q p2.1) p = true := hq
      rw [List.filter_cons, if_pos hc]
      by_cases hpk : p.1 = k
      · have hqk : q k = true := hpk ▸ hq
        simp [dlookup, hpk, hqk]
      · simp only [dlookup, if_neg hpk]
        exact ih
    · have hq2 : q p.1 = false := by revert hq; cases q p.1 <;> simp
      have hc : ¬ ((fun p2 : String × α => q p2.1) p = true) := by simp [hq2]
      rw [List.filter_cons, if_neg hc]
      by_cases hpk : p.1 = k
      · have hqk : q k = false := hpk ▸ hq2
        simp [dlookup, hpk, hqk, ih]
      · simp only [dlookup, if_neg hpk]
        exact ih

/-- Lookup in the saved subset: the prior visible binding, for the
scope's own keys only. -/
theorem dlookup_scope_saved (pfx : String) (kwargs : List (String × Val)) (s : Store)
    (k : String) :
    dlookup (scope_saved pfx kwargs s) k
      = if kwargs.any (fun q => decide (q.1 = k)) then readKey pfx k s else none :=
  dlookup_filter_keys (get_contextvars pfx s) (fun x => kwargs.any (fun q => decide (q.1 = x))) k

/-- A body that just unsets keys is built from the module's operations. -/
theorem goodBody_unset (pfx : String) (keys : List String) :
    GoodBody (fun t => unset_contextvars pfx keys t) := by
  intro t
  constructor
  · exact fun h => WFc_unset pfx keys t h
  · intro nm h
    rw [unset_registry]
    exact h

/-- Claim C5: unset_contextvars is idempotent — running it twice over
the same prefix and key sequence gives exactly the same state (hence the
same visible state for every prefix) as running it once — and a key
whose variable was never created in the registry is a no-op for the
operation. -/
theorem claim_C5 (P : String) (keys : List String) (s : Store) :
    unset_contextvars P keys (unset_contextvars P keys s) = unset_contextvars P keys s
    ∧ ∀ k : String, strCat P k ∉ s.registry → unset_contextvars P [k] s = s := by
  constructor
  · apply unset_noop
    intro k hk hr
    rw [unset_registry] at hr
    exact unset_lookup_mem P keys s k hk hr
  · intro k hnr
    show unsetOne P k s = s
    unfold unsetOne
    rw [if_neg hnr]

/-- Witness for claim C5 at concrete inputs. -/
theorem claim_C5_witness :
    unset_contextvars "log_" ["a"] (unset_contextvars "log_" ["a"] store0)
        = unset_contextvars "log_" ["a"] store0
    ∧ unset_contextvars "log_" ["b"] store0 = store0 :=
  ⟨(claim_C5 "log_" ["a"] store0).1, (claim_C5 "log_" ["a"] store0).2 "b" (by decide)⟩

/-- Claim C7 (the code races): in the interleaving model of the
first-use path of set_contextvars, a sequential schedule leaves both
threads holding the same ContextVar, but the racing schedule — both
threads take the KeyError branch before either inserts — creates two
distinct ContextVars, the two callers hold different ones, and the
first caller's variable is not the one the registry retains. -/
theorem claim_C7 :
    (raceRun [true, true, false] raceInit).t1.held
        = (raceRun [true, true, false] raceInit).t2.held
    ∧ (raceRun [true, false, true, false] raceInit).t1.held = some 0
    ∧ (raceRun [true, false, true, false] raceInit).t2.held = some 1
    ∧ (raceRun [true, false, true, false] raceInit).t1.held
        ≠ (raceRun [true, false, true, false] raceInit).t2.held
    ∧ (raceRun [true, false, true, false] raceInit).reg
        ≠ (raceRun [true, false, true, false] raceInit).t1.held := by
  decide

/-- Claim C9: get_current_node returns None in a context where the slot
was never set, and after any nonempty sequence of set_current_node calls
returns exactly the value passed to the most recent one — each set
unconditionally overwrites the single slot. -/
theorem claim_C9 :
    (∀ s : Store, ctxLookup s.ctx VarId.currentNodeVar = none →
      get_current_node s = Val.null)
    ∧ (∀ (s : Store) (vs : List Val) (v : Val),
        get_current_node ((vs ++ [v]).foldl (fun st u => set_current_node u st) s) = v) := by
  constructor
  · intro s h
    unfold get_current_node
    rw [h]
    rfl
  · intro s vs v
    rw [List.foldl_append]
    show (ctxLookup (ctxSet _ VarId.currentNodeVar v) VarId.currentNodeVar).getD Val.null = v
    rw [ctxLookup_ctxSet, if_pos rfl]
    rfl

/-- Witness for claim C9 at concrete inputs. -/
theorem claim_C9_witness :
    get_current_node store0 = Val.null
    ∧ get_current_node ((([Val.str "n1"] : List Val) ++ [Val.str "n2"]).foldl
        (fun st u => set_current_node u st) store0) = Val.str "n2" :=
  ⟨claim_C9.1 store0 rfl, claim_C9.2 store0 [Val.str "n1"] (Val.str "n2")⟩

/-- Claim C10: get_contextvars enumerates every set context variable
whose name starts with the prefix, not only registry ones — in
particular, for any prefix of the name "current_node", once the
current-node slot holds a non-sentinel value, the slot's binding appears
in the result under its suffix-stripped key. -/
theorem claim_C10 (P : String) (s : Store) (v : Val)
    (hpre : strStartsWith "current_node" P = true)
    (hset : ctxLookup s.ctx VarId.currentNodeVar = some v)
    (hv : v ≠ Val.ellipsis) :
    ∃ w : Val, readKey P (strDrop "current_node" (strLen P)) s = some w := by
  have hmem : (VarId.currentNodeVar, v) ∈ s.ctx := ctxLookup_mem s.ctx _ v hset
  have hm : matchesKey P (strDrop "current_node" (strLen P))
      (VarId.currentNodeVar, v) = true := by
    apply (matchesKey_true_iff P _ _).mpr
    exact ⟨(strCat_of_startsWith "current_node" P hpre).symm, hv⟩
  obtain ⟨q, hq⟩ := lastMatch_isSome P _ s.ctx _ hmem hm
  rw [readKey_eq_lastMatch, hq]
  exact ⟨q.2, rfl⟩

/-- Witness for claim C10 at concrete inputs. -/
theorem claim_C10_witness :
    ∃ w : Val, readKey "current" (strDrop "current_node" (strLen "current"))
      (⟨[], [(VarId.currentNodeVar, Val.str "n")]⟩ : Store) = some w :=
  claim_C10 "current" ⟨[], [(VarId.currentNodeVar, Val.str "n")]⟩ (Val.str "n")
    (by decide) rfl (by decide)

/-- Counterexample to claim C3 as stated: with prefix "" and an entry
whose fully-qualified name is literally "current_node", the module-level
current-node slot shares the name, is iterated after the registry
variable, and its value shadows the fresh entry in the get_contextvars
result — so readVisible after setMany is not entries merged over the
prior state. -/
theorem claim_C3_counterexample :
    readKey "" "current_node" c3After = some (Val.str "B")
    ∧ specMerge [("current_node", Val.str "C")] (get_contextvars "" c3Store) "current_node"
        = some (Val.str "C")
    ∧ readKey "" "current_node" c3After
        ≠ specMerge [("current_node", Val.str "C")] (get_contextvars "" c3Store)
            "current_node" := by
  decide

/-- Scope restoration, present key: if "x" is visible with value v0
before the scope and "x" is among the scope's keys, then whatever the
body did (any state transform preserving the structural facts), after
the exit "x" is visible with v0 again — the re-set of the saved subset
is the last write to that variable. -/
theorem scope_try_restores_present {ε : Type} (P : String) (v0 : Val)
    (kwargs : List (String × Val)) (body : Store → Store × Option ε) (s : Store)
    (hW : WFc s.ctx) (hbody : GoodBodyTry body)
    (hx : "x" ∈ kwargs.map (fun q => q.1))
    (h0 : readKey P "x" s = some v0) :
    readKey P "x" (scoped_contextvars_try P kwargs body s).1 = some v0 := by
  have hsq : kwargs.any (fun q => decide (q.1 = "x")) = true := by
    rw [List.any_eq_true]
    obtain ⟨q, hq, hq1⟩ := List.mem_map.mp hx
    exact ⟨q, hq, by simp [hq1]⟩
  have hsaved : dlookup (scope_saved P kwargs s) "x" = some v0 := by
    rw [dlookup_scope_saved, if_pos hsq]
    exact h0
  have hmem : ("x", v0) ∈ scope_saved P kwargs s :=
    dlookup_some_mem _ "x" v0 hsaved
  have hunf : (scoped_contextvars_try P kwargs body s).1
      = (set_contextvars P (scope_saved P kwargs s)
          (unset_contextvars P (kwargs.map (fun q => q.1))
            (body (set_contextvars P kwargs s).2).1)).2 := rfl
  rw [hunf]
  have hW1 := WFc_set P kwargs s hW
  have hW2 := (hbody (set_contextvars P kwargs s).2).1 hW1
  have hW3 := WFc_unset P (kwargs.map (fun q => q.1)) _ hW2
  have hW4 := WFc_set P (scope_saved P kwargs s) _ hW3
  rw [readKey_visValue P "x" _ hW4 (matchesKey_x_currentNode P _)]
  have hlk := set_lookup_mem P (scope_saved P kwargs s)
    (unset_contextvars P (kwargs.map (fun q => q.1))
      (body (set_contextvars P kwargs s).2).1)
    "x" v0 (scope_saved_keys_nodup P kwargs s) hmem
  have hne : v0 ≠ Val.ellipsis := by
    have h0v := readKey_visValue P "x" s hW (matchesKey_x_currentNode P s.ctx)
    rw [h0] at h0v
    exact visValue_some_ne s.ctx _ v0 h0v.symm
  rw [visValue_lookup_some _ _ _ hlk, if_neg hne]

/-- Scope restoration, absent key: if "x" is not visible before the
scope and "x" is among the scope's keys, then whatever the body did,
after the exit "x" is not visible — the saved subset has no binding for
it and the unset left the variable at the sentinel. -/
theorem scope_try_restores_absent {ε : Type} (P : String)
    (kwargs : List (String × Val)) (body : Store → Store × Option ε) (s : Store)
    (hW : WFc s.ctx) (hbody : GoodBodyTry body)
    (hx : "x" ∈ kwargs.map (fun q => q.1))
    (h0 : readKey P "x" s = none) :
    readKey P "x" (scoped_contextvars_try P kwargs body s).1 = none := by
  have hunf : (scoped_contextvars_try P kwargs body s).1
      = (set_contextvars P (scope_saved P kwargs s)
          (unset_contextvars P (kwargs.map (fun q => q.1))
            (body (set_contextvars P kwargs s).2).1)).2 := rfl
  rw [hunf]
  have hW1 := WFc_set P kwargs s hW
  have hW2 := (hbody (set_contextvars P kwargs s).2).1 hW1
  have hW3 := WFc_unset P (kwargs.map (fun q => q.1)) _ hW2
  have hW4 := WFc_set P (scope_saved P kwargs s) _ hW3
  rw [readKey_visValue P "x" _ hW4 (matchesKey_x_currentNode P _)]
  have hsx : dlookup (scope_saved P kwargs s) "x" = none := by
    rw [dlookup_scope_saved]
    by_cases hq : kwargs.any (fun q => decide (q.1 = "x")) = true
    · rw [if_pos hq]
      exact h0
    · rw [if_neg hq]
  have hother : ∀ k2 ∈ (scope_saved P kwargs s).map (fun q => q.1),
      VarId.reg (strCat P k2) ≠ VarId.reg (strCat P "x") := by
    intro k2 hk2 hh
    have he : k2 = "x" := strCat_left_cancel P k2 "x" (by injection hh)
    exact (dlookup_eq_none_iff _ "x").mp hsx (he ▸ hk2)
  have hreg : strCat P "x" ∈ (body (set_contextvars P kwargs s).2).1.registry :=
    (hbody _).2 _ (set_registry_key_mem P kwargs s "x" hx)
  have hlk := unset_lookup_mem P (kwargs.map (fun q => q.1)) _ "x" hx hreg
  have hlkF : ctxLookup (set_contextvars P (scope_saved P kwargs s)
      (unset_contextvars P (kwargs.map (fun q => q.1))
        (body (set_contextvars P kwargs s).2).1)).2.ctx (VarId.reg (strCat P "x"))
      = some Val.ellipsis := by
    rw [set_lookup_other P _ _ _ hother]
    exact hlk
  rw [visValue_lookup_some _ _ _ hlkF, if_pos rfl]

/-- Claim C1: for every prefix, entry map containing "x", and body built
from the module's operations, if "x" was visible with v0 before the
scope then after the scope returns "x" is visible with v0 again, even
though the body may have set, overwritten or unset it — the exit restore
overrides any such change. -/
theorem claim_C1 (P : String) (v0 v1 : Val) (kwargs : List (String × Val))
    (body : Store → Store) (s : Store)
    (hW : WFc s.ctx) (hbody : GoodBody body)
    (hx : ("x", v1) ∈ kwargs) (h0 : readKey P "x" s = some v0) :
    readKey P "x" (scoped_contextvars P kwargs body s) = some v0 :=
  scope_try_restores_present P v0 kwargs (fun t => (body t, (none : Option Unit))) s
    hW (fun t => hbody t) (List.mem_map.mpr ⟨("x", v1), hx, rfl⟩) h0

/-- Witness for claim C1: the body itself unsets "x"; the scope exit
still restores the prior value 7. -/
theorem claim_C1_witness :
    readKey "log_" "x" (scoped_contextvars "log_" [("x", Val.nat 1)]
      (fun t => unset_contextvars "log_" ["x"] t)
      ⟨["log_x"], [(VarId.reg "log_x", Val.nat 7)]⟩) = some (Val.nat 7) :=
  claim_C1 "log_" (Val.nat 7) (Val.nat 1) [("x", Val.nat 1)]
    (fun t => unset_contextvars "log_" ["x"] t)
    ⟨["log_x"], [(VarId.reg "log_x", Val.nat 7)]⟩
    (by decide) (goodBody_unset "log_" ["x"]) (by decide) (by decide)

/-- Claim C2: for a key "x" not visible before the scope, after the
scope concludes "x" is absent — whether the body returned normally or
raised — and when the body raises, the exit still ran and the same
error is forwarded to the caller unchanged. -/
theorem claim_C2 {ε : Type} (P : String) (v : Val) (body : Store → Store × Option ε)
    (s : Store) (hW : WFc s.ctx) (hbody : GoodBodyTry body)
    (h0 : readKey P "x" s = none) :
    readKey P "x" (scoped_contextvars_try P [("x", v)] body s).1 = none
    ∧ (scoped_contextvars_try P [("x", v)] body s).2
        = (body (set_contextvars P [("x", v)] s).2).2 :=
  ⟨scope_try_restores_absent P [("x", v)] body s hW hbody (by simp) h0, rfl⟩

/-- Witness for claim C2: the body sets "x" to 5 and raises error 37;
afterwards "x" is absent and the error is the body's own. -/
theorem claim_C2_witness :
    readKey "log_" "x" (scoped_contextvars_try "log_" [("x", Val.nat 1)]
      (fun t => ((set_contextvars "log_" [("x", Val.nat 5)] t).2, some (37 : Nat)))
      store0).1 = none
    ∧ (scoped_contextvars_try "log_" [("x", Val.nat 1)]
        (fun t => ((set_contextvars "log_" [("x", Val.nat 5)] t).2, some (37 : Nat)))
        store0).2
      = ((fun t => ((set_contextvars "log_" [("x", Val.nat 5)] t).2, some (37 : Nat)))
          (set_contextvars "log_" [("x", Val.nat 1)] store0).2).2 :=
  claim_C2 "log_" (Val.nat 1)
    (fun t => ((set_contextvars "log_" [("x", Val.nat 5)] t).2, some (37 : Nat)))
    store0 (by decide)
    (fun t => ⟨fun h => WFc_set "log_" [("x", Val.nat 5)] t h,
      fun nm hm => set_registry_mono "log_" [("x", Val.nat 5)] t nm hm⟩)
    (by decide)

/-- The identity body is built from the module's operations. -/
theorem goodBody_id : GoodBody (fun t => t) :=
  fun _ => ⟨fun h => h, fun _ h => h⟩

/-- A nested scope is itself a body built from the module's
operations. -/
theorem goodBody_scoped (P : String) (kwargs : List (String × Val))
    (body : Store → Store) (hbody : GoodBody body) :
    GoodBody (fun t => scoped_contextvars P kwargs body t) := by
  intro t
  constructor
  · intro h
    show WFc (set_contextvars P (scope_saved P kwargs t)
      (unset_contextvars P (kwargs.map (fun q => q.1))
        (body (set_contextvars P kwargs t).2))).2.ctx
    exact WFc_set P _ _ (WFc_unset P _ _ ((hbody _).1 (WFc_set P kwargs t h)))
  · intro nm h
    show nm ∈ (set_contextvars P (scope_saved P kwargs t)
      (unset_contextvars P (kwargs.map (fun q => q.1))
        (body (set_contextvars P kwargs t).2))).2.registry
    apply set_registry_mono
    rw [unset_registry]
    exact (hbody _).2 nm (set_registry_mono P kwargs t nm h)

/-- A single-key scope with any body built from the module's operations
leaves the key's visible binding exactly as it was. -/
theorem scoped_single_readKey (P : String) (v : Val) (body : Store → Store) (s : Store)
    (hW : WFc s.ctx) (hbody : GoodBody body) :
    readKey P "x" (scoped_contextvars P [("x", v)] body s) = readKey P "x" s := by
  cases h0 : readKey P "x" s with
  | some w =>
    exact scope_try_restores_present P w [("x", v)]
      (fun t => (body t, (none : Option Unit))) s hW (fun t => hbody t) (by simp) h0
  | none =>
    exact scope_try_restores_absent P [("x", v)]
      (fun t => (body t, (none : Option Unit))) s hW (fun t => hbody t) (by simp) h0

/-- Claim C8: nesting two scopes over the same prefix and key, the inner
read (at the state the inner body sees) yields the inner value 2, and
after both scopes exit in LIFO order the key's visible binding equals
its pre-outer-scope state — absent if it was absent, its old value if it
had one; neither scope leaks its binding past its own exit. -/
theorem claim_C8 (P : String) (s : Store) (hW : WFc s.ctx) :
    readKey P "x" (set_contextvars P [("x", Val.nat 2)]
        (set_contextvars P [("x", Val.nat 1)] s).2).2 = some (Val.nat 2)
    ∧ readKey P "x" (scoped_contextvars P [("x", Val.nat 1)]
        (fun t => scoped_contextvars P [("x", Val.nat 2)] (fun u => u) t) s)
      = readKey P "x" s := by
  constructor
  · have hW1 := WFc_set P [("x", Val.nat 1)] s hW
    have hW2 := WFc_set P [("x", Val.nat 2)] (set_contextvars P [("x", Val.nat 1)] s).2 hW1
    rw [readKey_visValue P "x" _ hW2 (matchesKey_x_currentNode P _)]
    have hlk := set_lookup_mem P [("x", Val.nat 2)]
      (set_contextvars P [("x", Val.nat 1)] s).2 "x" (Val.nat 2) (by simp) (by simp)
    rw [visValue_lookup_some _ _ _ hlk, if_neg (by simp)]
  · exact scoped_single_readKey P (Val.nat 1)
      (fun t => scoped_contextvars P [("x", Val.nat 2)] (fun u => u) t) s hW
      (goodBody_scoped P [("x", Val.nat 2)] (fun u => u) goodBody_id)

/-- Witness for claim C8 at concrete inputs. -/
theorem claim_C8_witness :
    readKey "log_" "x" (set_contextvars "log_" [("x", Val.nat 2)]
        (set_contextvars "log_" [("x", Val.nat 1)]
          (⟨["log_x"], [(VarId.reg "log_x", Val.str "pre")]⟩ : Store)).2).2
      = some (Val.nat 2)
    ∧ readKey "log_" "x" (scoped_contextvars "log_" [("x", Val.nat 1)]
        (fun t => scoped_contextvars "log_" [("x", Val.nat 2)] (fun u => u) t)
        (⟨["log_x"], [(VarId.reg "log_x", Val.str "pre")]⟩ : Store))
      = readKey "log_" "x" (⟨["log_x"], [(VarId.reg "log_x", Val.str "pre")]⟩ : Store) :=
  claim_C8 "log_" ⟨["log_x"], [(VarId.reg "log_x", Val.str "pre")]⟩ (by decide)

/-- Claim C3 amended: after set_contextvars, the visible state under the
prefix binds exactly the entries (suffix-stripped) merged over whatever
was already visible at other keys — provided no entry key's
fully-qualified name collides with a visible current-node slot (the
counterexample shows the unamended claim fails on exactly that
collision; entry values are user values, hence never the sentinel, and
keyword keys are distinct). -/
theorem claim_C3_amended (P : String) (entries : List (String × Val)) (s : Store)
    (hW : WFc s.ctx)
    (hnd : (entries.map (fun q => q.1)).Nodup)
    (hval : ∀ q ∈ entries, q.2 ≠ Val.ellipsis)
    (hcn : ∀ k ∈ entries.map (fun q => q.1), ∀ p ∈ s.ctx,
        p.1 = VarId.currentNodeVar → matchesKey P k p = false) :
    ∀ k : String, readKey P k (set_contextvars P entries s).2
        = specMerge entries (get_contextvars P s) k := by
  intro k
  cases hd : dlookup entries k with
  | some v =>
    have hmem : (k, v) ∈ entries := dlookup_some_mem entries k v hd
    have hkk : k ∈ entries.map (fun q => q.1) := List.mem_map.mpr ⟨(k, v), hmem, rfl⟩
    have hW2 := WFc_set P entries s hW
    have hcn2 : ∀ p ∈ (set_contextvars P entries s).2.ctx,
        p.1 = VarId.currentNodeVar → matchesKey P k p = false := by
      intro p hp hcnp
      exact hcn k hkk p (set_ctx_mem_currentNode P entries s p hp hcnp) hcnp
    rw [readKey_visValue P k _ hW2 hcn2]
    have hlk := set_lookup_mem P entries s k v hnd hmem
    rw [visValue_lookup_some _ _ _ hlk, if_neg (hval (k, v) hmem)]
    unfold specMerge
    rw [hd]
  | none =>
    have hknot : k ∉ entries.map (fun q => q.1) := by
      intro hkk
      obtain ⟨q, hq, hq1⟩ := List.mem_map.mp hkk
      exact dlookup_isSome_of_mem entries q hq (hq1.symm ▸ hd)
    rw [readKey_eq_lastMatch, lastMatch_set_not_key P entries s k hknot,
      ← readKey_eq_lastMatch]
    unfold specMerge
    rw [hd]
    rfl

/-- Witness for the amended claim C3 at concrete inputs. -/
theorem claim_C3_witness :
    readKey "log_" "a" (set_contextvars "log_" [("a", Val.nat 1)]
        (⟨["log_b"], [(VarId.reg "log_b", Val.nat 9)]⟩ : Store)).2
      = specMerge [("a", Val.nat 1)]
          (get_contextvars "log_" (⟨["log_b"], [(VarId.reg "log_b", Val.nat 9)]⟩ : Store))
          "a" :=
  claim_C3_amended "log_" [("a", Val.nat 1)]
    ⟨["log_b"], [(VarId.reg "log_b", Val.nat 9)]⟩
    (by decide) (by decide) (by decide) (by decide) "a"

/-- Deleting one variable commutes with setting a different one. -/
theorem ctxDel_ctxSet_comm (c : Ctx) (a b : VarId) (w : Val) (hab : b ≠ a) :
    ctxDel (ctxSet c b w) a = ctxSet (ctxDel c a) b w := by
  induction c with
  | nil =>
    show ctxDel [(b, w)] a = [(b, w)]
    simp [ctxDel, hab]
  | cons p rest ih =>
    by_cases hpb : p.1 = b
    · have hpa : p.1 ≠ a := by rw [hpb]; exact hab
      rw [show ctxSet (p :: rest) b w = (b, w) :: rest from by simp [ctxSet, hpb]]
      rw [show ctxDel ((b, w) :: rest) a = (b, w) :: ctxDel rest a from by
        simp [ctxDel, List.filter_cons, hab]]
      rw [show ctxDel (p :: rest) a = p :: ctxDel rest a from by
        simp [ctxDel, List.filter_cons, hpa]]
      rw [show ctxSet (p :: ctxDel rest a) b w = (b, w) :: ctxDel rest a from by
        simp [ctxSet, hpb]]
    · by_cases hpa : p.1 = a
      · rw [show ctxSet (p :: rest) b w = p :: ctxSet rest b w from by simp [ctxSet, hpb]]
        rw [show ctxDel (p :: ctxSet rest b w) a = ctxDel (ctxSet rest b w) a from by
          simp [ctxDel, List.filter_cons, hpa]]
        rw [show ctxDel (p :: rest) a = ctxDel rest a from by
          simp [ctxDel, List.filter_cons, hpa]]
        exact ih
      · rw [show ctxSet (p :: rest) b w = p :: ctxSet rest b w from by simp [ctxSet, hpb]]
        rw [show ctxDel (p :: ctxSet rest b w) a = p :: ctxDel (ctxSet rest b w) a from by
          simp [ctxDel, List.filter_cons, hpa]]
        rw [show ctxDel (p :: rest) a = p :: ctxDel rest a from by
          simp [ctxDel, List.filter_cons, hpa]]
        rw [show ctxSet (p :: ctxDel rest a) b w = p :: ctxSet (ctxDel rest a) b w from by
          simp [ctxSet, hpb]]
        rw [ih]

/-- Setting two different variables commutes when the first is already
in the context. -/
theorem ctxSet_ctxSet_comm (c : Ctx) (a b : VarId) (u w : Val) (hab : b ≠ a)
    (ha : ctxLookup c a ≠ none) :
    ctxSet (ctxSet c b w) a u = ctxSet (ctxSet c a u) b w := by
  induction c with
  | nil => exact absurd rfl ha
  | cons p rest ih =>
    by_cases hpb : p.1 = b
    · have hpa : p.1 ≠ a := by rw [hpb]; exact hab
      rw [show ctxSet (p :: rest) b w = (b, w) :: rest from by simp [ctxSet, hpb]]
      rw [show ctxSet ((b, w) :: rest) a u = (b, w) :: ctxSet rest a u from by
        simp [ctxSet, hab]]
      rw [show ctxSet (p :: rest) a u = p :: ctxSet rest a u from by simp [ctxSet, hpa]]
      rw [show ctxSet (p :: ctxSet rest a u) b w = (b, w) :: ctxSet rest a u from by
        simp [ctxSet, hpb]]
    · by_cases hpa : p.1 = a
      · have hab2 : a ≠ b := fun hh => hab hh.symm
        rw [show ctxSet (p :: rest) b w = p :: ctxSet rest b w from by simp [ctxSet, hpb]]
        rw [show ctxSet (p :: ctxSet rest b w) a u = (a, u) :: ctxSet rest b w from by
          simp [ctxSet, hpa]]
        rw [show ctxSet (p :: rest) a u = (a, u) :: rest from by simp [ctxSet, hpa]]
        rw [show ctxSet ((a, u) :: rest) b w = (a, u) :: ctxSet rest b w from by
          simp [ctxSet, hab2]]
      · have ha2 : ctxLookup rest a ≠ none := by
          intro hh
          apply ha
          simp [ctxLookup, hpa, hh]
        rw [show ctxSet (p :: rest) b w = p :: ctxSet rest b w from by simp [ctxSet, hpb]]
        rw [show ctxSet (p :: ctxSet rest b w) a u = p :: ctxSet (ctxSet rest b w) a u from by
          simp [ctxSet, hpa]]
        rw [show ctxSet (p :: rest) a u = p :: ctxSet rest a u from by simp [ctxSet, hpa]]
        rw [show ctxSet (p :: ctxSet rest a u) b w = p :: ctxSet (ctxSet rest a u) b w from by
          simp [ctxSet, hpb]]
        rw [ih ha2]

/-- Restoring one variable commutes with setting a different one, as
long as a value restore targets a variable already in the context. -/
theorem restoreCtx_ctxSet_comm (c : Ctx) (a b : VarId) (old : Option Val) (w : Val)
    (hab : b ≠ a) (hpres : old = none ∨ ctxLookup c a ≠ none) :
    restoreCtx (ctxSet c b w) a old = ctxSet (restoreCtx c a old) b w := by
  cases old with
  | none => exact ctxDel_ctxSet_comm c a b w hab
  | some u =>
    have ha : ctxLookup c a ≠ none := by
      rcases hpres with h | h
      · exact Option.noConfusion h
      · exact h
    exact ctxSet_ctxSet_comm c a b u w hab ha

/-- One reset step when the variable exists. -/
theorem resetOne_of_mem (pfx k : String) (tok : Token) (s : Store)
    (h : strCat pfx k ∈ s.registry) :
    resetOne pfx k tok s = Except.ok
      ⟨s.registry, restoreCtx s.ctx (VarId.reg (strCat pfx k)) tok.old⟩ := by
  show (if strCat pfx k ∈ s.registry then
      Except.ok (⟨s.registry, restoreCtx s.ctx (VarId.reg (strCat pfx k)) tok.old⟩ : Store)
    else Except.error (strCat pfx k)) = _
  rw [if_pos h]

/-- One reset step when the variable was never created: the KeyError. -/
theorem resetOne_of_not_mem (pfx k : String) (tok : Token) (s : Store)
    (h : strCat pfx k ∉ s.registry) :
    resetOne pfx k tok s = Except.error (strCat pfx k) := by
  show (if strCat pfx k ∈ s.registry then
      Except.ok (⟨s.registry, restoreCtx s.ctx (VarId.reg (strCat pfx k)) tok.old⟩ : Store)
    else Except.error (strCat pfx k)) = _
  rw [if_neg h]

/-- The reset loop past a successful step. -/
theorem reset_cons_ok (pfx k : String) (tok : Token) (rest : List (String × Token))
    (s s1 : Store) (h : resetOne pfx k tok s = Except.ok s1) :
    reset_contextvars pfx ((k, tok) :: rest) s = reset_contextvars pfx rest s1 := by
  show (match resetOne pfx k tok s with
    | Except.ok s2 => reset_contextvars pfx rest s2
    | Except.error e => Except.error e) = _
  rw [h]

/-- The reset loop stopping at a failed step. -/
theorem reset_cons_err (pfx k : String) (tok : Token) (rest : List (String × Token))
    (s : Store) (e : String) (h : resetOne pfx k tok s = Except.error e) :
    reset_contextvars pfx ((k, tok) :: rest) s = Except.error e := by
  show (match resetOne pfx k tok s with
    | Except.ok s2 => reset_contextvars pfx rest s2
    | Except.error e2 => Except.error e2) = _
  rw [h]

/-- Restoring the head key's variable commutes past the sets of the
remaining distinct keys: same tokens, and the restore can be postponed
to the end. -/
theorem reset_head_comm (pfx : String) (rest : List (String × Val)) (k : String)
    (old : Option Val) (s : Store)
    (hk : k ∉ rest.map (fun q => q.1))
    (hpres : old = none ∨ ctxLookup s.ctx (VarId.reg (strCat pfx k)) ≠ none) :
    set_contextvars pfx rest
        ⟨s.registry, restoreCtx s.ctx (VarId.reg (strCat pfx k)) old⟩
      = ((set_contextvars pfx rest s).1,
         ⟨(set_contextvars pfx rest s).2.registry,
          restoreCtx (set_contextvars pfx rest s).2.ctx (VarId.reg (strCat pfx k)) old⟩) := by
  induction rest generalizing s with
  | nil => rfl
  | cons kv rest2 ih =>
    obtain ⟨k0, v0⟩ := kv
    have hk0 : k0 ≠ k := by
      intro hh
      exact hk (by simp [hh])
    have hk2 : k ∉ rest2.map (fun q => q.1) := by
      intro hh
      exact hk (by simp [hh])
    have hba : VarId.reg (strCat pfx k0) ≠ VarId.reg (strCat pfx k) := by
      intro hh
      exact hk0 (strCat_left_cancel pfx k0 k (by injection hh))
    have htok : ctxLookup (restoreCtx s.ctx (VarId.reg (strCat pfx k)) old)
        (VarId.reg (strCat pfx k0)) = ctxLookup s.ctx (VarId.reg (strCat pfx k0)) :=
      ctxLookup_restoreCtx_other s.ctx _ old _ hba
    have hctx : ctxSet (restoreCtx s.ctx (VarId.reg (strCat pfx k)) old)
        (VarId.reg (strCat pfx k0)) v0
        = restoreCtx (ctxSet s.ctx (VarId.reg (strCat pfx k0)) v0)
            (VarId.reg (strCat pfx k)) old :=
      (restoreCtx_ctxSet_comm s.ctx _ _ old v0 hba hpres).symm
    have htok2 : (setOne pfx k0 v0
        ⟨s.registry, restoreCtx s.ctx (VarId.reg (strCat pfx k)) old⟩).1
        = (setOne pfx k0 v0 s).1 := by
      show Token.mk (VarId.reg (strCat pfx k0))
          (ctxLookup (restoreCtx s.ctx (VarId.reg (strCat pfx k)) old)
            (VarId.reg (strCat pfx k0)))
        = Token.mk (VarId.reg (strCat pfx k0))
          (ctxLookup s.ctx (VarId.reg (strCat pfx k0)))
      rw [htok]
    have hst2 : (setOne pfx k0 v0
        ⟨s.registry, restoreCtx s.ctx (VarId.reg (strCat pfx k)) old⟩).2
        = ⟨(setOne pfx k0 v0 s).2.registry,
           restoreCtx (setOne pfx k0 v0 s).2.ctx (VarId.reg (strCat pfx k)) old⟩ := by
      show Store.mk
          (if strCat pfx k0 ∈ s.registry then s.registry
           else s.registry ++ [strCat pfx k0])
          (ctxSet (restoreCtx s.ctx (VarId.reg (strCat pfx k)) old)
            (VarId.reg (strCat pfx k0)) v0)
        = Store.mk
          (if strCat pfx k0 ∈ s.registry then s.registry
           else s.registry ++ [strCat pfx k0])
          (restoreCtx (ctxSet s.ctx (VarId.reg (strCat pfx k0)) v0)
            (VarId.reg (strCat pfx k)) old)
      rw [hctx]
    have hpres2 : old = none ∨
        ctxLookup (setOne pfx k0 v0 s).2.ctx (VarId.reg (strCat pfx k)) ≠ none := by
      rcases hpres with h | h
      · exact Or.inl h
      · right
        show ctxLookup (ctxSet s.ctx (VarId.reg (strCat pfx k0)) v0)
          (VarId.reg (strCat pfx k)) ≠ none
        rw [ctxLookup_ctxSet, if_neg (Ne.symm hba)]
        exact h
    have hih := ih (setOne pfx k0 v0 s).2 hk2 hpres2
    show ((k0, (setOne pfx k0 v0
          ⟨s.registry, restoreCtx s.ctx (VarId.reg (strCat pfx k)) old⟩).1)
        :: (set_contextvars pfx rest2 (setOne pfx k0 v0
            ⟨s.registry, restoreCtx s.ctx (VarId.reg (strCat pfx k)) old⟩).2).1,
        (set_contextvars pfx rest2 (setOne pfx k0 v0
          ⟨s.registry, restoreCtx s.ctx (VarId.reg (strCat pfx k)) old⟩).2).2) = _
    rw [htok2, hst2, hih]
    rfl

/-- Undo of a whole set_contextvars: resetting with the tokens it
returned, in the same key order, restores the context exactly (the
registry keeps whatever was created). -/
theorem set_then_reset (pfx : String) (entries : List (String × Val)) (s : Store)
    (hnd : (entries.map (fun q => q.1)).Nodup) :
    reset_contextvars pfx (set_contextvars pfx entries s).1
        (set_contextvars pfx entries s).2
      = Except.ok ⟨(set_contextvars pfx entries s).2.registry, s.ctx⟩ := by
  induction entries generalizing s with
  | nil => rfl
  | cons kv rest ih =>
    obtain ⟨k0, v0⟩ := kv
    rw [List.map_cons, List.nodup_cons] at hnd
    have hreg : strCat pfx k0 ∈
        (set_contextvars pfx rest (setOne pfx k0 v0 s).2).2.registry :=
      set_registry_mono pfx rest _ _ (setOne_registry_mem pfx k0 v0 s)
    have hstep := reset_cons_ok pfx k0 (setOne pfx k0 v0 s).1
      (set_contextvars pfx rest (setOne pfx k0 v0 s).2).1
      (set_contextvars pfx rest (setOne pfx k0 v0 s).2).2
      ⟨(set_contextvars pfx rest (setOne pfx k0 v0 s).2).2.registry,
       restoreCtx (set_contextvars pfx rest (setOne pfx k0 v0 s).2).2.ctx
         (VarId.reg (strCat pfx k0)) (ctxLookup s.ctx (VarId.reg (strCat pfx k0)))⟩
      (resetOne_of_mem pfx k0 (setOne pfx k0 v0 s).1 _ hreg)
    show reset_contextvars pfx
        ((k0, (setOne pfx k0 v0 s).1)
          :: (set_contextvars pfx rest (setOne pfx k0 v0 s).2).1)
        (set_contextvars pfx rest (setOne pfx k0 v0 s).2).2 = _
    rw [hstep]
    have hcomm := reset_head_comm pfx rest k0
      (ctxLookup s.ctx (VarId.reg (strCat pfx k0))) (setOne pfx k0 v0 s).2 hnd.1
      (Or.inr (by
        show ctxLookup (ctxSet s.ctx (VarId.reg (strCat pfx k0)) v0)
          (VarId.reg (strCat pfx k0)) ≠ none
        rw [ctxLookup_ctxSet, if_pos rfl]
        exact fun hh => Option.noConfusion hh))
    have hundo : restoreCtx (setOne pfx k0 v0 s).2.ctx (VarId.reg (strCat pfx k0))
        (ctxLookup s.ctx (VarId.reg (strCat pfx k0))) = s.ctx := by
      show restoreCtx (ctxSet s.ctx (VarId.reg (strCat pfx k0)) v0)
        (VarId.reg (strCat pfx k0))
        (ctxLookup s.ctx (VarId.reg (strCat pfx k0))) = s.ctx
      exact restoreCtx_ctxSet_self s.ctx _ v0
    rw [hundo] at hcomm
    have hih := ih ⟨(setOne pfx k0 v0 s).2.registry, s.ctx⟩ hnd.2
    rw [hcomm] at hih
    exact hih

/-- Claim C4 round-trip: resetting with the token map an immediately
preceding set_contextvars returned restores, for every key of the
entries, the visible binding to exactly what it was before the set — an
absent key becomes absent again, a key that held v0 holds v0 again. -/
theorem claim_C4 (P : String) (entries : List (String × Val)) (s : Store)
    (hnd : (entries.map (fun q => q.1)).Nodup) :
    ∃ s2 : Store,
      reset_contextvars P (set_contextvars P entries s).1
          (set_contextvars P entries s).2 = Except.ok s2
      ∧ ∀ k ∈ entries.map (fun q => q.1), readKey P k s2 = readKey P k s := by
  refine ⟨⟨(set_contextvars P entries s).2.registry, s.ctx⟩,
    set_then_reset P entries s hnd, ?_⟩
  intro k _
  rfl

/-- Witness for claim C4 at concrete inputs. -/
theorem claim_C4_witness :
    ∃ s2 : Store,
      reset_contextvars "log_" (set_contextvars "log_" [("a", Val.nat 1)] store0).1
          (set_contextvars "log_" [("a", Val.nat 1)] store0).2 = Except.ok s2
      ∧ ∀ k ∈ [("a", Val.nat 1)].map (fun q => q.1),
          readKey "log_" k s2 = readKey "log_" k store0 :=
  claim_C4 "log_" [("a", Val.nat 1)] store0 (by decide)

/-- Claim C6: reset_contextvars succeeds exactly when every key's
variable exists in the registry, and any failure is the UnknownVariable
error carrying a fully-qualified name that was never created and comes
from one of the passed keys. -/
theorem claim_C6 (P : String) (toks : List (String × Token)) (s : Store) :
    ((∃ s2 : Store, reset_contextvars P toks s = Except.ok s2)
      ↔ ∀ k ∈ toks.map (fun q => q.1), strCat P k ∈ s.registry)
    ∧ ∀ e : String, reset_contextvars P toks s = Except.error e →
        e ∉ s.registry ∧ ∃ k ∈ toks.map (fun q => q.1), e = strCat P k := by
  induction toks generalizing s with
  | nil =>
    constructor
    · constructor
      · intro _ k hk
        simp at hk
      · intro _
        exact ⟨s, rfl⟩
    · intro e he
      exact Except.noConfusion he
  | cons kt rest ih =>
    obtain ⟨k0, t0⟩ := kt
    by_cases hr : strCat P k0 ∈ s.registry
    · have hstep := reset_cons_ok P k0 t0 rest s
        ⟨s.registry, restoreCtx s.ctx (VarId.reg (strCat P k0)) t0.old⟩
        (resetOne_of_mem P k0 t0 s hr)
      have hih := ih ⟨s.registry, restoreCtx s.ctx (VarId.reg (strCat P k0)) t0.old⟩
      constructor
      · constructor
        · intro hok k hk
          obtain ⟨s2, hs2⟩ := hok
          rw [hstep] at hs2
          rw [List.map_cons, List.mem_cons] at hk
          rcases hk with hk | hk
          · rw [hk]
            exact hr
          · exact hih.1.mp ⟨s2, hs2⟩ k hk
        · intro hall
          obtain ⟨s2, hs2⟩ := hih.1.mpr (fun k hk => hall k (by simp [hk]))
          exact ⟨s2, by rw [hstep]; exact hs2⟩
      · intro e he
        rw [hstep] at he
        obtain ⟨h1, k, hk, hk2⟩ := hih.2 e he
        exact ⟨h1, k, by simp [hk], hk2⟩
    · have hstep := reset_cons_err P k0 t0 rest s (strCat P k0)
        (resetOne_of_not_mem P k0 t0 s hr)
      constructor
      · constructor
        · intro hok
          obtain ⟨s2, hs2⟩ := hok
          rw [hstep] at hs2
          exact Except.noConfusion hs2
        · intro hall
          exact absurd (hall k0 (by simp)) hr
      · intro e he
        rw [hstep] at he
        have he2 : strCat P k0 = e := by
          injection he
        subst he2
        exact ⟨hr, k0, by simp, rfl⟩

/-- Witness for claim C6: a token for a key whose variable was never
created makes reset fail with that fully-qualified name. -/
theorem claim_C6_witness :
    strCat "log_" "a" ∉ store0.registry
    ∧ ∃ k ∈ [("a", (⟨VarId.reg (strCat "log_" "a"), (none : Option Val)⟩ : Token))].map
        (fun q => q.1), strCat "log_" "a" = strCat "log_" k :=
  (claim_C6 "log_" [("a", ⟨VarId.reg (strCat "log_" "a"), none⟩)] store0).2
    (strCat "log_" "a") rfl
